import Mathlib

/-!
Verification of the safe destructive batch-operation pattern shared by the
three Deno maintenance scripts: `compress_and_delete.ts` (archive one level
of the working directory with 7z and delete sources on success),
`video_to_webm_converter.ts` (recursively transcode videos to WebM with
ffmpeg and delete sources on success), and `file_copy_and_rename.ts`
(recursively copy files into a content-addressed target directory, naming
each copy by a hash of its content).

The filesystem is modelled explicitly: a directory is a list of named
entries, files carry a size (archive and transcode models) or a byte list
(hash-rename model).  The external tools (7z, ffmpeg) are oracles: functions
from the invocation to an exit-status flag together with the size of the
artifact they leave behind, if any.  Each model also emits an event trace
recording tool invocations, reads, writes, skips and deletions, in program
order.
-/

namespace Batch

/-- Index of the last dot in a character list, if any. -/
def lastDot : List Char → Option Nat
  | [] => none
  | c :: cs =>
    match lastDot cs with
    | some i => some (i + 1)
    | none => if c = '.' then some 0 else none

/-- Node-style `extname` on a bare file name: the suffix of the name from
its last dot, or the empty string when there is no dot or the only dot is
the leading character (hidden-file convention). -/
def extname (name : String) : String :=
  match lastDot name.toList with
  | none => ""
  | some 0 => ""
  | some i => String.mk (name.toList.drop i)

/-- ASCII lowercasing of one character, as `toLowerCase` acts on the
ASCII range (file extensions here are ASCII). -/
def lowerChar (c : Char) : Char :=
  if 65 ≤ c.toNat ∧ c.toNat ≤ 90 then Char.ofNat (c.toNat + 32) else c

/-- `getFileExtension` of the scripts: `extname`, with the dot stripped and
lowercased; JavaScript `null` when `extname` is empty.  Note the source
tests the returned string for truthiness, so a name like `"a."` yields
`some ""`, which every use site then treats as absent. -/
def getFileExtension (p : String) : Option String :=
  let e := extname p
  if e = "" then none
  else some (String.mk ((e.toList.drop 1).map lowerChar))

/-- JavaScript truthiness of a `string | null` extension value: `null` and
the empty string are falsy. -/
def extTruthy : Option String → Bool
  | none => false
  | some s => !(s == "")

/-- `String.startsWith`, expressed on the underlying character lists. -/
def strStarts (pre s : String) : Bool := pre.toList.isPrefixOf s.toList

/-- `String.endsWith`, expressed on the underlying character lists. -/
def strEnds (suf s : String) : Bool := suf.toList.isSuffixOf s.toList

/-- All names in the list are distinct (a real directory listing). -/
def distinctNames : List String → Bool
  | [] => true
  | n :: rest => !(rest.contains n) && distinctNames rest

/-! ## Model A: `compress_and_delete.ts` (archive variant)

The script works on a single directory level.  State: the list of entries
of the working directory.  The 7z oracle maps (source path, output path) to
an exit flag and the size of the archive it leaves at the output path, if
it writes one (a real 7z may leave a partial archive even on failure, and
may leave nothing at all; the oracle covers every such behaviour). -/

/-- One entry of the working directory. -/
structure AEntry where
  name : String
  isDir : Bool
  size : Nat
deriving DecidableEq

/-- `exists` check: some entry (file or directory) has this name. -/
def hasName (s : List AEntry) (n : String) : Bool :=
  s.any (fun e => e.name == n)

/-- Create or overwrite a plain file of the given size. -/
def setFile : List AEntry → String → Nat → List AEntry
  | [], n, sz => [⟨n, false, sz⟩]
  | e :: rest, n, sz =>
    if e.name == n then ⟨n, false, sz⟩ :: rest else e :: setFile rest n sz

/-- `Deno.remove`: drop the entry with the given name. -/
def removeName : List AEntry → String → List AEntry
  | [], _ => []
  | e :: rest, n =>
    if e.name == n then removeName rest n else e :: removeName rest n

/-- Observable events of one archive run, in program order. -/
inductive AEvent where
  | skippedItem (item : String)
  | toolRun (item out : String)
  | wrote (out : String) (size : Nat)
  | removed (item : String)
  | failedItem (item : String)
deriving DecidableEq

/-- Per-item outcome. -/
inductive Outcome where
  | skipped
  | succeeded (artifact : String)
  | failed
deriving DecidableEq

/-- The 7z oracle: given the item path and the output path, an exit-status
flag together with the size of the file it leaves at the output path
(`none`: it leaves nothing there). -/
abbrev SevenZip : Type := String → String → Bool × Option Nat

/-- One iteration of the processing loop of `compress_and_delete.ts`:
derive the output path `name.7z`; skip if it already exists; otherwise run
7z, and delete the source exactly when 7z reports success. -/
def processItem (tool : SevenZip) (s : List AEntry) (it : AEntry) :
    List AEntry × Outcome × List AEvent :=
  let out := it.name ++ ".7z"
  if hasName s out then
    (s, Outcome.skipped, [AEvent.skippedItem it.name])
  else
    let r := tool it.name out
    let s1 := match r.2 with
      | some sz => setFile s out sz
      | none => s
    let evW : List AEvent := match r.2 with
      | some sz => [AEvent.wrote out sz]
      | none => []
    if r.1 then
      (removeName s1 it.name, Outcome.succeeded out,
        AEvent.toolRun it.name out :: evW ++ [AEvent.removed it.name])
    else
      (s1, Outcome.failed,
        AEvent.toolRun it.name out :: evW ++ [AEvent.failedItem it.name])

/-- Process a list of snapshot items in order against an evolving state,
collecting a per-item outcome trace and the event log. -/
def runItems (tool : SevenZip) :
    List AEntry → List AEntry →
    List AEntry × List (AEntry × Outcome) × List AEvent
  | [], s => (s, [], [])
  | it :: rest, s =>
    let r1 := processItem tool s it
    let r2 := runItems tool rest r1.1
    (r2.1, (it, r1.2.1) :: r2.2.1, r1.2.2 ++ r2.2.2)

/-- The collection filter: the loop skips an item when its name ends in
`.ts` or starts with a dot; it keeps it otherwise. -/
def keepA (n : String) : Bool := !(strEnds ".ts" n) && !(strStarts "." n)

/-- The snapshot the script collects before processing: every entry of the
working directory whose name neither ends in `.ts` nor starts with a dot. -/
def snapshot (s : List AEntry) : List AEntry :=
  s.filter (fun e => keepA e.name)

/-- The whole archive run: list the directory once, then process the fixed
snapshot. -/
def runArchive (tool : SevenZip) (s : List AEntry) :
    List AEntry × List (AEntry × Outcome) × List AEvent :=
  runItems tool (snapshot s) s

/-! ## Model B: `video_to_webm_converter.ts` (transcode variant)

State: a tree of named nodes.  Paths are component lists.  The ffmpeg
oracle maps the input path to an exit flag and the size of the file it
leaves at the output path, if any.  A conversion failure in the source is
an uncaught `throw`, so the run result carries an optional error together
with the filesystem state at the moment of the abort. -/

/-- A node of the scanned tree. -/
inductive FNode where
  | file (name : String) (size : Nat)
  | dir (name : String) (children : List FNode)

def FNode.name : FNode → String
  | .file n _ => n
  | .dir n _ => n

def namesOf (l : List FNode) : List String := l.map FNode.name

/-- `fileExists` via `Deno.stat`: any entry (file or directory) counts. -/
def hasEntry (l : List FNode) (n : String) : Bool :=
  l.any (fun e => e.name == n)

/-- `Deno.stat(...).size` on a directory-level entry; `none` models the
`NotFound` throw.  The directory case is unreachable in the program (the
output name was checked fresh before the tool ran). -/
def statSize (l : List FNode) (n : String) : Option Nat :=
  match l.find? (fun e => e.name == n) with
  | some (.file _ sz) => some sz
  | some (.dir _ _) => some 0
  | none => none

/-- Create or overwrite a plain file of the given size (ffmpeg `-y`). -/
def setFileB : List FNode → String → Nat → List FNode
  | [], n, sz => [.file n sz]
  | e :: rest, n, sz =>
    if e.name == n then .file n sz :: rest else e :: setFileB rest n sz

/-- `Deno.remove` of a file at this level. -/
def removeB : List FNode → String → List FNode
  | [], _ => []
  | e :: rest, n =>
    if e.name == n then removeB rest n else e :: removeB rest n

/-- Replace the subtree of the directory with the given name. -/
def replaceDir : List FNode → String → List FNode → List FNode
  | [], _, _ => []
  | e :: rest, n, ch =>
    if e.name == n then .dir n ch :: rest else e :: replaceDir rest n ch

/-- Supported input extensions of the transcode script. -/
def SUPPORTED_EXTENSIONS : List String :=
  ["avi", "mov", "mts", "vob", "mpg", "mpeg", "3gp", "wmv"]

def OUTPUT_EXTENSION : String := "webm"

/-- The output name: the terminal `.ext` (matched case-insensitively by the
source's anchored regex) replaced by `.webm`. -/
def outName (name ext : String) : String :=
  String.mk (name.toList.take (name.toList.length - (ext.toList.length + 1)))
    ++ "." ++ OUTPUT_EXTENSION

/-- The conversion filter shared by `convertVideoFile` and the scan loop:
the extension string is truthy and in the supported list. -/
def matchesSupported (n : String) : Bool :=
  extTruthy (getFileExtension n) &&
    SUPPORTED_EXTENSIONS.contains ((getFileExtension n).getD "")

/-- The output name of a supported input name. -/
def outOf (n : String) : String :=
  outName n ((getFileExtension n).getD "")

/-- Observable events of one transcode run, in program order. -/
inductive TEvent where
  | skipExists (input : List String)
  | ffmpegRun (input : List String)
  | removedSrc (input : List String)
deriving DecidableEq

/-- The uncaught throws of `convertVideoFile`. -/
inductive TErr where
  | processError (input : List String)
  | statNotFound (output : List String)
  | emptyOutput (input : List String)
deriving DecidableEq

/-- Result of a (partial) transcode run: events, filesystem state when the
run returned or aborted, and the abort error if any. -/
structure TRes where
  events : List TEvent
  state : List FNode
  err : Option TErr

/-- The ffmpeg oracle: given the input path, an exit flag and the size of
the file it leaves at the output path (`none`: nothing written). -/
abbrev Ffmpeg : Type := List String → Bool × Option Nat

/-- `convertVideoFile`: re-check the extension; derive the output name;
skip if it exists; otherwise run ffmpeg; a non-zero exit throws; on a zero
exit stat the output, throw on a missing or zero-length artifact, and only
then delete the source file. -/
def convertVideoFile (ff : Ffmpeg) (dirPath : List String) (name : String)
    (cur : List FNode) : TRes :=
  if !(matchesSupported name) then
    ⟨[], cur, none⟩
  else
    let out := outOf name
    let inputPath := dirPath ++ [name]
    if hasEntry cur out then
      ⟨[TEvent.skipExists inputPath], cur, none⟩
    else
      let r := ff inputPath
      let cur1 := match r.2 with
        | some sz => setFileB cur out sz
        | none => cur
      if !r.1 then
        ⟨[TEvent.ffmpegRun inputPath], cur1, some (TErr.processError inputPath)⟩
      else
        match statSize cur1 out with
        | none =>
          ⟨[TEvent.ffmpegRun inputPath], cur1,
            some (TErr.statNotFound (dirPath ++ [out]))⟩
        | some 0 =>
          ⟨[TEvent.ffmpegRun inputPath], cur1,
            some (TErr.emptyOutput inputPath)⟩
        | some (_ + 1) =>
          ⟨[TEvent.ffmpegRun inputPath, TEvent.removedSrc inputPath],
            removeB cur1 name, none⟩

mutual

/-- `scanDirectoryRecursively`: iterate the directory listing in order;
skip hidden entries; recurse into subdirectories pre-order; convert files
with a supported extension.  An error from a conversion propagates and
aborts the remainder (the source has no catch around the recursion). -/
def scanDirEntries (ff : Ffmpeg) (dirPath : List String) :
    List FNode → List FNode → TRes
  | [], cur => ⟨[], cur, none⟩
  | e :: rest, cur =>
    let r := scanDirOne ff dirPath e cur
    match r.err with
    | some err => ⟨r.events, r.state, some err⟩
    | none =>
      let r2 := scanDirEntries ff dirPath rest r.state
      ⟨r.events ++ r2.events, r2.state, r2.err⟩

/-- The body of the scan loop for a single directory entry. -/
def scanDirOne (ff : Ffmpeg) (dirPath : List String) :
    FNode → List FNode → TRes
  | .dir n children, cur =>
    if strStarts "." n then ⟨[], cur, none⟩
    else
      let r := scanDirEntries ff (dirPath ++ [n]) children children
      ⟨r.events, replaceDir cur n r.state, r.err⟩
  | .file n _, cur =>
    if strStarts "." n then ⟨[], cur, none⟩
    else if matchesSupported n then convertVideoFile ff dirPath n cur
    else ⟨[], cur, none⟩

end

/-- A whole transcode run from the working directory. -/
def runTranscode (ff : Ffmpeg) (root : List FNode) : TRes :=
  scanDirEntries ff [] root root

/-! ## Model C: `file_copy_and_rename.ts` (hash-rename variant)

State: the source tree (files carry their byte content) and the flat target
directory.  The hash is an oracle `HashFn` (the script uses streamed BLAKE3
then Base58; any function of the full content). -/

/-- A node of the source tree. -/
inductive CNode where
  | file (name : String) (content : List Nat)
  | dir (name : String) (children : List CNode)

def CNode.name : CNode → String
  | .file n _ => n
  | .dir n _ => n

/-- The target directory: file name and content pairs. -/
abbrev Tgt : Type := List (String × List Nat)

/-- Target existence check (`fileExists` on the joined target path). -/
def tgtHas (t : Tgt) (n : String) : Bool :=
  t.any (fun p => p.1 == n)

/-- The hash oracle: a function of the full file content. -/
abbrev HashFn : Type := List Nat → String

/-- Observable events of one copy run, in program order. -/
inductive REvent where
  | readFull (input : List String)
  | statTarget (tname : String)
  | copied (input : List String) (tname : String)
  | removedSource (input : List String)
  | skippedExisting (input : List String) (tname : String)
deriving DecidableEq

/-- The target file name built by `copySingleFile` step 3: hash plus dot
plus extension when the extension string is truthy, the bare hash
otherwise. -/
def targetNameOf (hashFn : HashFn) (content : List Nat) (name : String) :
    String :=
  let extension := getFileExtension name
  if extTruthy extension then
    hashFn content ++ "." ++ extension.getD ""
  else hashFn content

/-- Result of `copySingleFile`: the new target directory, whether the
source was deleted, and the events in order. -/
structure CRes where
  target : Tgt
  deleted : Bool
  events : List REvent

/-- `copySingleFile`: hash the full content first, derive the target name,
then check target existence; skip if present; otherwise copy, and in move
mode delete the source after the copy completes. -/
def copySingleFile (hashFn : HashFn) (move : Bool) (tgt : Tgt)
    (input : List String) (name : String) (content : List Nat) : CRes :=
  let tname := targetNameOf hashFn content name
  if tgtHas tgt tname then
    ⟨tgt, false,
      [REvent.readFull input, REvent.statTarget tname,
        REvent.skippedExisting input tname]⟩
  else
    let tgt1 := tgt ++ [(tname, content)]
    if move then
      ⟨tgt1, true,
        [REvent.readFull input, REvent.statTarget tname,
          REvent.copied input tname, REvent.removedSource input]⟩
    else
      ⟨tgt1, false,
        [REvent.readFull input, REvent.statTarget tname,
          REvent.copied input tname]⟩

/-- The extension filter of the scan loop: skip when the extension is falsy
or not in the configured list. -/
def matchesExt (exts : List String) (name : String) : Bool :=
  let extO := getFileExtension name
  extTruthy extO && exts.contains (extO.getD "")

/-- Result of a copy run: the surviving source tree, the target directory,
and the events. -/
structure SRes where
  tree : List CNode
  target : Tgt
  events : List REvent

mutual

/-- `scanAndCopyFiles`: iterate the listing in order; skip hidden entries;
recurse into subdirectories pre-order; copy files passing the extension
filter.  The surviving tree drops exactly the sources deleted in move
mode. -/
def scanAndCopyFiles (hashFn : HashFn) (exts : List String) (move : Bool)
    (dirPath : List String) : List CNode → Tgt → SRes
  | [], tgt => ⟨[], tgt, []⟩
  | e :: rest, tgt =>
    let r1 := scanCopyOne hashFn exts move dirPath e tgt
    let r2 := scanAndCopyFiles hashFn exts move dirPath rest r1.target
    ⟨r1.tree ++ r2.tree, r2.target, r1.events ++ r2.events⟩

/-- The body of the copy loop for a single entry; `tree` holds the
surviving form of this entry (empty when the source was moved away). -/
def scanCopyOne (hashFn : HashFn) (exts : List String) (move : Bool)
    (dirPath : List String) : CNode → Tgt → SRes
  | .dir n children, tgt =>
    if strStarts "." n then ⟨[CNode.dir n children], tgt, []⟩
    else
      let r := scanAndCopyFiles hashFn exts move (dirPath ++ [n]) children tgt
      ⟨[CNode.dir n r.tree], r.target, r.events⟩
  | .file n c, tgt =>
    if strStarts "." n then ⟨[CNode.file n c], tgt, []⟩
    else if matchesExt exts n then
      let r1 := copySingleFile hashFn move tgt (dirPath ++ [n]) n c
      ⟨(if r1.deleted then [] else [CNode.file n c]), r1.target, r1.events⟩
    else ⟨[CNode.file n c], tgt, []⟩

end

/-- The configured extension list of the script. -/
def EXTENSIONS : List String := ["mp4", "webm", "m4v"]

/-- A whole copy run from the configured source root. -/
def runCopy (hashFn : HashFn) (exts : List String) (move : Bool)
    (root : List CNode) (tgt : Tgt) : SRes :=
  scanAndCopyFiles hashFn exts move [] root tgt

/-! ## Derived predicates used by the statements -/

/-- The item path an archive event refers to (the artifact write carries
the output path, not an item path). -/
def itemOfEvent : AEvent → Option String
  | .skippedItem i => some i
  | .toolRun i _ => some i
  | .removed i => some i
  | .failedItem i => some i
  | .wrote _ _ => none

/-- Relation for the artifact-freshness property of the archive run: once
an artifact has been written at a path, no later event may compress that
path as an item or delete it. -/
def noReuseAfter (a b : AEvent) : Bool :=
  match a with
  | .wrote w _ =>
    match b with
    | .toolRun i _ => !(i == w)
    | .removed i => !(i == w)
    | _ => true
  | _ => true

def namesA (s : List AEntry) : List String := s.map AEntry.name

mutual

/-- Well-formed tree: distinct entry names at every directory level. -/
def wfList : List FNode → Bool
  | [] => true
  | e :: rest =>
    !((namesOf rest).contains e.name) && wfNode e && wfList rest

def wfNode : FNode → Bool
  | .file _ _ => true
  | .dir _ ch => wfList ch

end

mutual

/-- A tree level is settled when every reachable supported input file
already has its output artifact among its siblings: the state after a
fully successful transcode run, and exactly the condition making a rerun
skip everything. -/
def settledList : List FNode → List FNode → Bool
  | _, [] => true
  | all, e :: rest => settledNode all e && settledList all rest

def settledNode : List FNode → FNode → Bool
  | all, .file n _ =>
    if strStarts "." n then true
    else if matchesSupported n then hasEntry all (outOf n)
    else true
  | _, .dir n ch =>
    if strStarts "." n then true else settledList ch ch

end

/-- Level condition on a single node sitting in sibling context `st`. -/
def okEntryB (st : List FNode) : FNode → Prop
  | .file n _ =>
    strStarts "." n = false → matchesSupported n = true →
      hasEntry st (outOf n) = true
  | .dir n ch =>
    strStarts "." n = false →
      settledList ch ch = true ∧ wfList ch = true

/-- The source path a transcode event refers to. -/
def tpathOf : TEvent → List String
  | .skipExists p => p
  | .ffmpegRun p => p
  | .removedSrc p => p

/-- The path extends `d` and no component below `d` is hidden. -/
def cleanFrom (d p : List String) : Bool :=
  d.isPrefixOf p && (p.drop d.length).all (fun c => !(strStarts "." c))

/-- A legitimate transcode source path relative to root `d`: clean, and
its final component passes the conversion filter. -/
def srcPathOk (d p : List String) : Bool :=
  cleanFrom d p &&
    (match p.getLast? with
     | some n => matchesSupported n
     | none => false)

/-- The source path a copy event refers to, when it has one. -/
def rpathOf : REvent → Option (List String)
  | .readFull p => some p
  | .copied p _ => some p
  | .removedSource p => some p
  | .skippedExisting p _ => some p
  | .statTarget _ => none

/-- A legitimate copy source path relative to root `d`: clean, and its
final component passes the extension filter. -/
def srcPathOkC (exts : List String) (d p : List String) : Bool :=
  cleanFrom d p &&
    (match p.getLast? with
     | some n => matchesExt exts n
     | none => false)

mutual

/-- The copy-model analogue of `settledList`: every reachable matching
source file already has its content-addressed name in the target. -/
def csettled (hashFn : HashFn) (exts : List String) (tgt : Tgt) :
    List CNode → Bool
  | [] => true
  | e :: rest => csettledNode hashFn exts tgt e && csettled hashFn exts tgt rest

def csettledNode (hashFn : HashFn) (exts : List String) (tgt : Tgt) :
    CNode → Bool
  | .file n c =>
    if strStarts "." n then true
    else if matchesExt exts n then tgtHas tgt (targetNameOf hashFn c n)
    else true
  | .dir n ch =>
    if strStarts "." n then true else csettled hashFn exts tgt ch

end

/-- Target names written by the copy events of a run. -/
def copiedNames : List REvent → List String
  | [] => []
  | .copied _ t :: rest => t :: copiedNames rest
  | _ :: rest => copiedNames rest

/-- Number of full-content reads in a run's events. -/
def countReads : List REvent → Nat
  | [] => 0
  | .readFull _ :: rest => countReads rest + 1
  | _ :: rest => countReads rest

mutual

/-- Number of non-hidden files passing the extension filter in a tree,
counting only files reachable without entering a hidden directory. -/
def matchedCount (exts : List String) : List CNode → Nat
  | [] => 0
  | e :: rest => matchedCountNode exts e + matchedCount exts rest

def matchedCountNode (exts : List String) : CNode → Nat
  | .file n _ =>
    if strStarts "." n then 0 else if matchesExt exts n then 1 else 0
  | .dir n ch =>
    if strStarts "." n then 0 else matchedCount exts ch

end

def tgtNames (t : Tgt) : List String := t.map Prod.fst

/-! ## Concrete instances used by counterexamples and witnesses -/

/-- A 7z behaviour that reports success but leaves no artifact at all. -/
def toolNoArtifact : SevenZip := fun _ _ => (true, none)

/-- A 7z behaviour that reports success and writes a 5-byte archive. -/
def toolSize5 : SevenZip := fun _ _ => (true, some 5)

/-- A 7z behaviour that reports failure, writing a partial 1-byte file. -/
def toolFailPartial : SevenZip := fun _ _ => (false, some 1)

/-- Working directory holding one ordinary file `a`. -/
def dirA : List AEntry := [⟨"a", false, 5⟩]

/-- Working directory with two ordinary files. -/
def dirAB : List AEntry := [⟨"a", false, 5⟩, ⟨"b", false, 7⟩]

/-- An ffmpeg behaviour that always fails, writing nothing. -/
def ffAlwaysFail : Ffmpeg := fun _ => (false, none)

/-- An ffmpeg behaviour that reports success but writes a zero-byte
output. -/
def ffEmptyOut : Ffmpeg := fun _ => (true, some 0)

/-- An ffmpeg behaviour that reports success and writes 9 bytes. -/
def ffGoodOut : Ffmpeg := fun _ => (true, some 9)

/-- Two convertible sibling videos. -/
def treeAB : List FNode := [.file "a.mov" 10, .file "b.mov" 10]

/-- A sibling list holding one convertible video. -/
def treeA : List FNode := [.file "a.mov" 7]

/-- A constant hash oracle (any deterministic digest works here). -/
def hashConst : HashFn := fun _ => "HASH"

/-- Two source files with byte-identical content and different (both
configured) extensions. -/
def treePair : List CNode :=
  [.file "a.mp4" [1, 2], .file "b.m4v" [1, 2]]

/-- Two source files with byte-identical content and the same extension. -/
def treeTwin : List CNode :=
  [.file "a.mp4" [1, 2], .file "b.mp4" [1, 2]]

/-- Every event of a transcode run is a skip (no tool run, no removal). -/
def allSkipEvents (evs : List TEvent) : Bool :=
  evs.all fun ev =>
    match ev with
    | .skipExists _ => true
    | _ => false

/-- No copy-run event writes to the target or removes a source. -/
def noWriteEvents (evs : List REvent) : Bool :=
  evs.all fun ev =>
    match ev with
    | .copied _ _ => false
    | .removedSource _ => false
    | _ => true

/-! ## Generic helper lemmas -/

theorem contains_eq_false {ns : List String} {n : String} :
    ns.contains n = false ↔ n ∉ ns := by
  constructor
  · intro h hm
    have ht : ns.contains n = true := List.elem_iff.mpr hm
    rw [h] at ht
    exact Bool.false_ne_true ht
  · intro h
    by_contra hc
    exact h (List.elem_iff.mp (Bool.of_not_eq_false hc))

theorem distinctNames_cons {n : String} {ns : List String} :
    distinctNames (n :: ns) = true ↔ n ∉ ns ∧ distinctNames ns = true := by
  simp [distinctNames, contains_eq_false]

theorem mem_namesOf {e : FNode} {l : List FNode} (h : e ∈ l) :
    e.name ∈ namesOf l :=
  List.mem_map_of_mem _ h

theorem unique_of_distinct {l : List FNode}
    (hd : distinctNames (namesOf l) = true)
    {a b : FNode} (ha : a ∈ l) (hb : b ∈ l) (hn : a.name = b.name) :
    a = b := by
  induction l with
  | nil => cases ha
  | cons x xs ih =>
    have hd' := distinctNames_cons.mp (by simpa [namesOf] using hd)
    rcases List.mem_cons.mp ha with rfl | ha'
    · rcases List.mem_cons.mp hb with rfl | hb'
      · rfl
      · exact absurd (hn ▸ mem_namesOf hb') hd'.1
    · rcases List.mem_cons.mp hb with rfl | hb'
      · exact absurd (hn ▸ mem_namesOf ha') hd'.1
      · exact ih (by simpa [namesOf] using hd'.2) ha' hb'

/-! ## Model A helper lemmas -/

theorem hasName_of_mem {s : List AEntry} {e : AEntry} (h : e ∈ s) :
    hasName s e.name = true := by
  simp only [hasName, List.any_eq_true]
  exact ⟨e, h, by simp⟩

theorem hasName_eq_false {s : List AEntry} {n : String}
    (h : hasName s n = false) : ∀ e ∈ s, e.name ≠ n := by
  intro e he heq
  have hm := hasName_of_mem he
  rw [heq, h] at hm
  exact Bool.false_ne_true hm

theorem setFile_fresh {s : List AEntry} {n : String} {sz : Nat}
    (h : hasName s n = false) : setFile s n sz = s ++ [⟨n, false, sz⟩] := by
  induction s with
  | nil => rfl
  | cons e rest ih =>
    have h1 : e.name ≠ n := hasName_eq_false h e (List.mem_cons_self e rest)
    have h2 : hasName rest n = false := by
      rcases Bool.eq_false_iff.mp h with _
      cases hr : hasName rest n
      · rfl
      · exact absurd (by simp [hasName] at hr ⊢; exact Or.inr hr) (Bool.eq_false_iff.mp h)
    simp [setFile, h1, ih h2]

theorem mem_removeName_of_ne {s : List AEntry} {e : AEntry} {n : String}
    (h : e ∈ s) (hne : e.name ≠ n) : e ∈ removeName s n := by
  induction s with
  | nil => cases h
  | cons x rest ih =>
    rcases List.mem_cons.mp h with rfl | h'
    · simp [removeName, hne]
    · by_cases hx : x.name = n
      · simpa [removeName, hx] using ih h'
      · simp [removeName, hx]
        exact Or.inr (ih h')

theorem hasName_removeName_of_ne {s : List AEntry} {m n : String}
    (hne : m ≠ n) : hasName (removeName s n) m = hasName s m := by
  induction s with
  | nil => rfl
  | cons x rest ih =>
    have ih' : ((removeName rest n).any fun e => e.name == m) =
        rest.any fun e => e.name == m := by
      simpa [hasName] using ih
    by_cases hx : x.name = n
    · have h1 : removeName (x :: rest) n = removeName rest n := by
        simp [removeName, hx]
      have hxm : (x.name == m) = false := by
        rw [hx]
        simp [beq_eq_false_iff_ne]
        exact fun hm => hne hm.symm
      rw [h1, ih]
      simp [hasName, hxm]
    · have h1 : removeName (x :: rest) n = x :: removeName rest n := by
        simp [removeName, hx]
      rw [h1]
      simp [hasName, ih']

theorem hasName_append_single {s : List AEntry} {x : AEntry} {m : String} :
    hasName (s ++ [x]) m = (hasName s m || (x.name == m)) := by
  simp [hasName, List.any_append]

theorem processItem_skip {tool : SevenZip} {s : List AEntry} {it : AEntry}
    (h : hasName s (it.name ++ ".7z") = true) :
    processItem tool s it = (s, Outcome.skipped, [AEvent.skippedItem it.name]) := by
  simp [processItem, h]

theorem processItem_preserves {tool : SevenZip} {s : List AEntry} {it e : AEntry}
    (he : e ∈ s) (hne : e.name ≠ it.name) :
    e ∈ (processItem tool s it).1 := by
  by_cases h : hasName s (it.name ++ ".7z") = true
  · simpa [processItem, h] using he
  · have hf : hasName s (it.name ++ ".7z") = false := by simpa using h
    rcases htool : tool it.name (it.name ++ ".7z") with ⟨ok, art⟩
    cases art with
    | none =>
      cases ok with
      | true =>
        simp [processItem, hf, htool]
        exact mem_removeName_of_ne he hne
      | false => simpa [processItem, hf, htool] using he
    | some sz =>
      have hset := @setFile_fresh s (it.name ++ ".7z") sz hf
      cases ok with
      | true =>
        simp [processItem, hf, htool, hset]
        exact mem_removeName_of_ne (List.mem_append_left _ he) hne
      | false =>
        simp [processItem, hf, htool, hset]
        exact Or.inl he

theorem processItem_hasName {tool : SevenZip} {s : List AEntry} {it : AEntry}
    {m : String} (hm : hasName s m = true) (hne : m ≠ it.name) :
    hasName (processItem tool s it).1 m = true := by
  by_cases h : hasName s (it.name ++ ".7z") = true
  · simpa [processItem, h] using hm
  · have hf : hasName s (it.name ++ ".7z") = false := by simpa using h
    rcases htool : tool it.name (it.name ++ ".7z") with ⟨ok, art⟩
    cases art with
    | none =>
      cases ok with
      | true =>
        simp [processItem, hf, htool]
        rw [hasName_removeName_of_ne hne, hm]
      | false => simpa [processItem, hf, htool] using hm
    | some sz =>
      have hset := @setFile_fresh s (it.name ++ ".7z") sz hf
      cases ok with
      | true =>
        simp [processItem, hf, htool, hset]
        rw [hasName_removeName_of_ne hne, hasName_append_single, hm]
        rfl
      | false =>
        simp [processItem, hf, htool, hset]
        rw [hasName_append_single, hm]
        rfl

theorem processItem_failed_keeps {tool : SevenZip} {s : List AEntry} {it : AEntry}
    (hoc : (processItem tool s it).2.1 = Outcome.failed)
    {e : AEntry} (he : e ∈ s) : e ∈ (processItem tool s it).1 := by
  by_cases h : hasName s (it.name ++ ".7z") = true
  · simpa [processItem, h] using he
  · have hf : hasName s (it.name ++ ".7z") = false := by simpa using h
    rcases htool : tool it.name (it.name ++ ".7z") with ⟨ok, art⟩
    cases ok with
    | true =>
      exfalso
      cases art with
      | none => simp [processItem, hf, htool] at hoc
      | some sz => simp [processItem, hf, htool] at hoc
    | false =>
      cases art with
      | none => simpa [processItem, hf, htool] using he
      | some sz =>
        have hset := @setFile_fresh s (it.name ++ ".7z") sz hf
        simp [processItem, hf, htool, hset]
        exact Or.inl he

theorem processItem_events_item {tool : SevenZip} {s : List AEntry} {it : AEntry} :
    ∀ ev ∈ (processItem tool s it).2.2, ∀ i, itemOfEvent ev = some i →
      i = it.name := by
  intro ev hev i hi
  by_cases h : hasName s (it.name ++ ".7z") = true
  · simp [processItem, h] at hev
    subst hev
    simp [itemOfEvent] at hi
    exact hi.symm
  · have hf : hasName s (it.name ++ ".7z") = false := by simpa using h
    rcases htool : tool it.name (it.name ++ ".7z") with ⟨ok, art⟩
    cases ok <;> cases art <;>
      simp [processItem, hf, htool] at hev <;>
      rcases hev with rfl | rfl | rfl <;>
      simp [itemOfEvent] at hi <;>
      exact hi.symm

theorem runItems_trace_fst (tool : SevenZip) (items : List AEntry) :
    ∀ s, ((runItems tool items s).2.1).map Prod.fst = items := by
  induction items with
  | nil => intro s; rfl
  | cons it rest ih =>
    intro s
    simp [runItems, ih]

theorem runItems_preserves {tool : SevenZip} {items : List AEntry} {e : AEntry} :
    ∀ {s}, e ∈ s → e.name ∉ items.map AEntry.name →
      e ∈ (runItems tool items s).1 := by
  induction items with
  | nil => intro s he _; simpa [runItems] using he
  | cons it rest ih =>
    intro s he hn
    rw [List.map_cons, List.mem_cons] at hn
    push_neg at hn
    simp only [runItems]
    exact ih (processItem_preserves he hn.1) hn.2

theorem runItems_event_item {tool : SevenZip} :
    ∀ {items : List AEntry} {s}, ∀ ev ∈ (runItems tool items s).2.2,
      ∀ i, itemOfEvent ev = some i → i ∈ items.map AEntry.name := by
  intro items
  induction items with
  | nil => intro s ev hev; simp [runItems] at hev
  | cons it rest ih =>
    intro s ev hev i hi
    simp only [runItems, List.mem_append] at hev
    rcases hev with hev | hev
    · rw [List.map_cons, List.mem_cons]
      exact Or.inl (processItem_events_item ev hev i hi)
    · rw [List.map_cons, List.mem_cons]
      exact Or.inr (ih ev hev i hi)

theorem runItems_failed_mem {tool : SevenZip} :
    ∀ {items : List AEntry} {s},
      distinctNames (items.map AEntry.name) = true →
      (∀ it ∈ items, it ∈ s) →
      ∀ p ∈ (runItems tool items s).2.1, p.2 = Outcome.failed →
        p.1 ∈ (runItems tool items s).1 := by
  intro items
  induction items with
  | nil => intro s _ _ p hp; simp [runItems] at hp
  | cons it rest ih =>
    intro s hd hsub p hp hfail
    have hd' := distinctNames_cons.mp (by simpa using hd)
    simp only [runItems, List.mem_cons] at hp ⊢
    rcases hp with rfl | hp
    · simp only at hfail
      have hit : it ∈ (processItem tool s it).1 :=
        processItem_failed_keeps hfail (hsub it (List.mem_cons_self it rest))
      exact runItems_preserves hit hd'.1
    · exact ih hd'.2
        (fun x hx => processItem_preserves (hsub x (List.mem_cons_of_mem _ hx))
          (fun hcon => hd'.1 (hcon ▸ List.mem_map_of_mem AEntry.name hx)))
        p hp hfail

theorem snapshot_sub {s : List AEntry} : ∀ it ∈ snapshot s, it ∈ s :=
  fun _ h => (List.mem_filter.mp h).1

theorem snapshot_keep {s : List AEntry} :
    ∀ it ∈ snapshot s, keepA it.name = true :=
  fun _ h => (List.mem_filter.mp h).2

theorem namesA_snapshot_sub {s : List AEntry} :
    ∀ n ∈ namesA (snapshot s), n ∈ namesA s := by
  intro n hn
  rcases List.mem_map.mp hn with ⟨e, he, rfl⟩
  exact List.mem_map_of_mem _ (snapshot_sub e he)

theorem distinctNames_snapshot {s : List AEntry}
    (hd : distinctNames (namesA s) = true) :
    distinctNames (namesA (snapshot s)) = true := by
  induction s with
  | nil => rfl
  | cons e rest ih =>
    have hd' := distinctNames_cons.mp (by simpa [namesA] using hd)
    by_cases hk : keepA e.name = true
    · have : snapshot (e :: rest) = e :: snapshot rest := by
        simp [snapshot, hk]
      rw [this]
      have : namesA (e :: snapshot rest) = e.name :: namesA (snapshot rest) := rfl
      rw [this, distinctNames_cons]
      exact ⟨fun hmem => hd'.1 (namesA_snapshot_sub e.name hmem), ih hd'.2⟩
    · have : snapshot (e :: rest) = snapshot rest := by
        simp [snapshot, hk]
      rw [this]
      exact ih hd'.2

theorem string_ne_append_7z (s : String) : s ≠ s ++ ".7z" := by
  intro h
  have hlen : s.data.length = (s ++ ".7z").data.length := by rw [← h]
  rw [String.data_append] at hlen
  simp at hlen

theorem processItem_wrote_mem {tool : SevenZip} {s : List AEntry}
    {it : AEntry} {w : String} {sz : Nat}
    (h : AEvent.wrote w sz ∈ (processItem tool s it).2.2) :
    w = it.name ++ ".7z" ∧ hasName s (it.name ++ ".7z") = false := by
  by_cases hsk : hasName s (it.name ++ ".7z") = true
  · simp [processItem, hsk] at h
  · have hf : hasName s (it.name ++ ".7z") = false := by simpa using hsk
    rcases htool : tool it.name (it.name ++ ".7z") with ⟨ok, art⟩
    cases ok <;> cases art <;> simp [processItem, hf, htool] at h <;>
      exact ⟨h.1, hf⟩

theorem processItem_pairwise {tool : SevenZip} {s : List AEntry} {it : AEntry} :
    List.Pairwise (fun a b => noReuseAfter a b = true)
      (processItem tool s it).2.2 := by
  have hne : (it.name == it.name ++ ".7z") = false := by
    simp [beq_eq_false_iff_ne]
    exact string_ne_append_7z it.name
  by_cases h : hasName s (it.name ++ ".7z") = true
  · simp [processItem, h]
  · have hf : hasName s (it.name ++ ".7z") = false := by simpa using h
    rcases htool : tool it.name (it.name ++ ".7z") with ⟨ok, art⟩
    cases ok <;> cases art <;>
      simp [processItem, hf, htool, noReuseAfter, hne]

theorem runItems_pairwise {tool : SevenZip} :
    ∀ {items : List AEntry} {s},
      distinctNames (items.map AEntry.name) = true →
      (∀ x ∈ items, hasName s x.name = true) →
      List.Pairwise (fun a b => noReuseAfter a b = true)
        (runItems tool items s).2.2 := by
  intro items
  induction items with
  | nil => intro s _ _; simp [runItems]
  | cons it rest ih =>
    intro s hd hpres
    have hd' := distinctNames_cons.mp (by simpa using hd)
    simp only [runItems]
    rw [List.pairwise_append]
    refine ⟨processItem_pairwise, ih hd'.2 ?_, ?_⟩
    · intro x hx
      exact processItem_hasName (hpres x (List.mem_cons_of_mem _ hx))
        fun hcon => hd'.1 (hcon ▸ List.mem_map_of_mem AEntry.name hx)
    · intro a ha b hb
      match a with
      | AEvent.skippedItem _ => rfl
      | AEvent.toolRun _ _ => rfl
      | AEvent.removed _ => rfl
      | AEvent.failedItem _ => rfl
      | AEvent.wrote w sz =>
        have hw := processItem_wrote_mem ha
        have hbitem : ∀ i, itemOfEvent b = some i → i ≠ w := by
          intro i hbi hiw
          have hmem := runItems_event_item b hb i hbi
          rcases List.mem_map.mp hmem with ⟨x, hx, hxn⟩
          have hhas := hpres x (List.mem_cons_of_mem _ hx)
          rw [hxn, hiw, hw.1] at hhas
          rw [hw.2] at hhas
          exact Bool.false_ne_true hhas
        match b with
        | AEvent.skippedItem _ => rfl
        | AEvent.wrote _ _ => rfl
        | AEvent.failedItem _ => rfl
        | AEvent.toolRun i o =>
          simp [noReuseAfter]
          exact hbitem i rfl
        | AEvent.removed i =>
          simp [noReuseAfter]
          exact hbitem i rfl

/-! ## Model B helper lemmas -/

theorem hasEntry_of_mem {l : List FNode} {e : FNode} (h : e ∈ l) :
    hasEntry l e.name = true := by
  simp only [hasEntry, List.any_eq_true]
  exact ⟨e, h, by simp⟩

theorem hasEntry_iff {l : List FNode} {n : String} :
    hasEntry l n = true ↔ n ∈ namesOf l := by
  simp only [hasEntry, List.any_eq_true, namesOf, List.mem_map]
  constructor
  · rintro ⟨e, he, hb⟩
    exact ⟨e, he, by simpa using hb⟩
  · rintro ⟨e, he, hb⟩
    exact ⟨e, he, by simp [hb]⟩

theorem hasEntry_eq_false {l : List FNode} {n : String}
    (h : hasEntry l n = false) : ∀ e ∈ l, e.name ≠ n := by
  intro e he heq
  have hm := hasEntry_of_mem he
  rw [heq, h] at hm
  exact Bool.false_ne_true hm

theorem setFileB_fresh {l : List FNode} {n : String} {sz : Nat}
    (h : hasEntry l n = false) : setFileB l n sz = l ++ [.file n sz] := by
  induction l with
  | nil => rfl
  | cons e rest ih =>
    have h1 : e.name ≠ n := hasEntry_eq_false h e (List.mem_cons_self e rest)
    have h2 : hasEntry rest n = false := by
      cases hr : hasEntry rest n
      · rfl
      · exfalso
        rcases List.any_eq_true.mp hr with ⟨x, hx, hb⟩
        have : hasEntry (e :: rest) n = true :=
          List.any_eq_true.mpr ⟨x, List.mem_cons_of_mem _ hx, hb⟩
        rw [h] at this
        exact Bool.false_ne_true this
    simp [setFileB, h1, ih h2]

theorem mem_removeB_of_ne {l : List FNode} {e : FNode} {n : String}
    (h : e ∈ l) (hne : e.name ≠ n) : e ∈ removeB l n := by
  induction l with
  | nil => cases h
  | cons x rest ih =>
    rcases List.mem_cons.mp h with rfl | h'
    · simp [removeB, hne]
    · by_cases hx : x.name = n
      · simpa [removeB, hx] using ih h'
      · simp [removeB, hx]
        exact Or.inr (ih h')

theorem removeB_sub {l : List FNode} {n : String} :
    ∀ e ∈ removeB l n, e ∈ l := by
  induction l with
  | nil => intro e he; cases he
  | cons x rest ih =>
    intro e he
    by_cases hx : x.name = n
    · simp [removeB, hx] at he
      exact List.mem_cons_of_mem _ (ih e he)
    · simp [removeB, hx] at he
      rcases he with rfl | he'
      · exact List.mem_cons_self _ _
      · exact List.mem_cons_of_mem _ (ih e he')

theorem hasEntry_removeB_of_ne {l : List FNode} {m n : String}
    (hne : m ≠ n) : hasEntry (removeB l n) m = hasEntry l m := by
  induction l with
  | nil => rfl
  | cons x rest ih =>
    have ih' : ((removeB rest n).any fun e => e.name == m) =
        rest.any fun e => e.name == m := by
      simpa [hasEntry] using ih
    by_cases hx : x.name = n
    · have h1 : removeB (x :: rest) n = removeB rest n := by
        simp [removeB, hx]
      have hxm : (x.name == m) = false := by
        rw [hx]
        simp [beq_eq_false_iff_ne]
        exact fun hm => hne hm.symm
      rw [h1, ih]
      simp [hasEntry, hxm]
    · have h1 : removeB (x :: rest) n = x :: removeB rest n := by
        simp [removeB, hx]
      rw [h1]
      simp [hasEntry, ih']

theorem mem_replaceDir_of_ne {l : List FNode} {e : FNode} {n : String}
    {ch : List FNode} (h : e ∈ l) (hne : e.name ≠ n) :
    e ∈ replaceDir l n ch := by
  induction l with
  | nil => cases h
  | cons x rest ih =>
    rcases List.mem_cons.mp h with rfl | h'
    · simp [replaceDir, hne]
    · by_cases hx : x.name = n
      · simp [replaceDir, hx]
        exact Or.inr h'
      · simp [replaceDir, hx]
        exact Or.inr (ih h')

theorem mem_replaceDir {l : List FNode} {n : String} {ch : List FNode} :
    ∀ e ∈ replaceDir l n ch, e ∈ l ∨ e = FNode.dir n ch := by
  induction l with
  | nil => intro e he; cases he
  | cons x rest ih =>
    intro e he
    by_cases hx : x.name = n
    · simp [replaceDir, hx] at he
      rcases he with rfl | he'
      · exact Or.inr rfl
      · exact Or.inl (List.mem_cons_of_mem _ he')
    · simp [replaceDir, hx] at he
      rcases he with rfl | he'
      · exact Or.inl (List.mem_cons_self _ _)
      · rcases ih e he' with h | h
        · exact Or.inl (List.mem_cons_of_mem _ h)
        · exact Or.inr h

theorem dir_mem_replaceDir {l : List FNode} {n : String} {ch : List FNode}
    (h : hasEntry l n = true) : FNode.dir n ch ∈ replaceDir l n ch := by
  induction l with
  | nil => simp [hasEntry] at h
  | cons x rest ih =>
    by_cases hx : x.name = n
    · simp [replaceDir, hx]
    · have h' : hasEntry rest n = true := by
        rcases List.any_eq_true.mp h with ⟨e, he, hb⟩
        have hb' : e.name = n := by simpa using hb
        rcases List.mem_cons.mp he with rfl | hmem
        · exact absurd hb' hx
        · exact List.any_eq_true.mpr ⟨e, hmem, by simp [hb']⟩
      simp [replaceDir, hx]
      exact Or.inr (ih h')

theorem namesOf_replaceDir {l : List FNode} {n : String} {ch : List FNode} :
    namesOf (replaceDir l n ch) = namesOf l := by
  induction l with
  | nil => rfl
  | cons x rest ih =>
    by_cases hx : x.name = n
    · have h1 : replaceDir (x :: rest) n ch = FNode.dir n ch :: rest := by
        simp [replaceDir, hx]
      rw [h1]
      show FNode.name (FNode.dir n ch) :: namesOf rest =
        FNode.name x :: namesOf rest
      rw [show FNode.name (FNode.dir n ch) = n from rfl, hx]
    · have h1 : replaceDir (x :: rest) n ch = x :: replaceDir rest n ch := by
        simp [replaceDir, hx]
      rw [h1]
      show FNode.name x :: namesOf (replaceDir rest n ch) =
        FNode.name x :: namesOf rest
      rw [ih]

theorem hasEntry_replaceDir {l : List FNode} {n m : String} {ch : List FNode} :
    hasEntry (replaceDir l n ch) m = hasEntry l m := by
  have h1 : hasEntry (replaceDir l n ch) m = true ↔ hasEntry l m = true := by
    rw [hasEntry_iff, hasEntry_iff, namesOf_replaceDir]
  cases h : hasEntry l m
  · cases h2 : hasEntry (replaceDir l n ch) m
    · rfl
    · rw [h1.mp h2] at h
      exact (Bool.false_ne_true h.symm).elim
  · exact h1.mpr h

theorem hasEntry_append_single {l : List FNode} {x : FNode} {m : String} :
    hasEntry (l ++ [x]) m = (hasEntry l m || (x.name == m)) := by
  simp [hasEntry, List.any_append]

theorem statSize_append_fresh {l : List FNode} {n : String} {sz : Nat}
    (h : hasEntry l n = false) :
    statSize (l ++ [FNode.file n sz]) n = some sz := by
  induction l with
  | nil => simp [statSize, List.find?, FNode.name]
  | cons x rest ih =>
    have h1 : x.name ≠ n := hasEntry_eq_false h x (List.mem_cons_self x rest)
    have h2 : hasEntry rest n = false := by
      cases hr : hasEntry rest n
      · rfl
      · exfalso
        rcases List.any_eq_true.mp hr with ⟨e, he, hb⟩
        have hc : hasEntry (x :: rest) n = true :=
          List.any_eq_true.mpr ⟨e, List.mem_cons_of_mem _ he, hb⟩
        rw [h] at hc
        exact Bool.false_ne_true hc
    have hb : (x.name == n) = false := by
      simp [beq_eq_false_iff_ne]
      exact h1
    have hstep : statSize ((x :: rest) ++ [FNode.file n sz]) n =
        statSize (rest ++ [FNode.file n sz]) n := by
      simp [statSize, List.find?, hb]
    rw [hstep, ih h2]

theorem replaceDir_self {l : List FNode} {n : String} {ch : List FNode}
    (hd : distinctNames (namesOf l) = true)
    (h : FNode.dir n ch ∈ l) : replaceDir l n ch = l := by
  induction l with
  | nil => cases h
  | cons x rest ih =>
    have hd' := distinctNames_cons.mp (by simpa [namesOf] using hd)
    rcases List.mem_cons.mp h with rfl | h'
    · simp [replaceDir, FNode.name]
    · have hx : x.name ≠ n := by
        intro heq
        have hn : n ∈ namesOf rest := by
          have := mem_namesOf h'
          simpa [FNode.name] using this
        rw [heq] at hd'
        exact hd'.1 hn
      have h1 : replaceDir (x :: rest) n ch = x :: replaceDir rest n ch := by
        simp [replaceDir, hx]
      rw [h1, ih (by simpa [namesOf] using hd'.2) h']

theorem wfList_cons {e : FNode} {rest : List FNode} :
    wfList (e :: rest) = true ↔
      e.name ∉ namesOf rest ∧ wfNode e = true ∧ wfList rest = true := by
  rw [wfList, Bool.and_eq_true, Bool.and_eq_true]
  rw [Bool.not_eq_true', contains_eq_false]
  exact ⟨fun h => ⟨h.1.1, h.1.2, h.2⟩, fun h => ⟨⟨h.1, h.2.1⟩, h.2.2⟩⟩

theorem wfList_distinct : ∀ {l : List FNode}, wfList l = true →
    distinctNames (namesOf l) = true := by
  intro l
  induction l with
  | nil => intro; rfl
  | cons e rest ih =>
    intro h
    have h' := wfList_cons.mp h
    show distinctNames (e.name :: namesOf rest) = true
    rw [distinctNames_cons]
    exact ⟨h'.1, ih h'.2.2⟩

theorem wfNode_of_mem : ∀ {l : List FNode} {e : FNode}, wfList l = true →
    e ∈ l → wfNode e = true := by
  intro l
  induction l with
  | nil => intro e _ he; cases he
  | cons x rest ih =>
    intro e h he
    have h' := wfList_cons.mp h
    rcases List.mem_cons.mp he with rfl | he'
    · exact h'.2.1
    · exact ih h'.2.2 he'

theorem namesOf_append {l₁ l₂ : List FNode} :
    namesOf (l₁ ++ l₂) = namesOf l₁ ++ namesOf l₂ := by
  simp [namesOf]

theorem wf_append_file {l : List FNode} {n : String} {sz : Nat}
    (hw : wfList l = true) (hf : hasEntry l n = false) :
    wfList (l ++ [FNode.file n sz]) = true := by
  induction l with
  | nil => simp [wfList, wfNode, namesOf]
  | cons x rest ih =>
    have h' := wfList_cons.mp hw
    have hx : x.name ≠ n := hasEntry_eq_false hf x (List.mem_cons_self x rest)
    have hrest : hasEntry rest n = false := by
      cases hr : hasEntry rest n
      · rfl
      · exfalso
        rcases List.any_eq_true.mp hr with ⟨e, he, hb⟩
        have hc : hasEntry (x :: rest) n = true :=
          List.any_eq_true.mpr ⟨e, List.mem_cons_of_mem _ he, hb⟩
        rw [hf] at hc
        exact Bool.false_ne_true hc
    rw [List.cons_append, wfList_cons]
    refine ⟨?_, h'.2.1, ih h'.2.2 hrest⟩
    rw [namesOf_append]
    intro hmem
    rcases List.mem_append.mp hmem with hmem | hmem
    · exact h'.1 hmem
    · have : x.name = n := by simpa [namesOf, FNode.name] using hmem
      exact hx this

theorem namesOf_removeB_sub {l : List FNode} {n : String} :
    ∀ m ∈ namesOf (removeB l n), m ∈ namesOf l := by
  intro m hm
  rcases List.mem_map.mp hm with ⟨e, he, rfl⟩
  exact List.mem_map_of_mem _ (removeB_sub e he)

theorem wf_removeB {l : List FNode} {n : String} (hw : wfList l = true) :
    wfList (removeB l n) = true := by
  induction l with
  | nil => rfl
  | cons x rest ih =>
    have h' := wfList_cons.mp hw
    by_cases hx : x.name = n
    · have h1 : removeB (x :: rest) n = removeB rest n := by
        simp [removeB, hx]
      rw [h1]
      exact ih h'.2.2
    · have h1 : removeB (x :: rest) n = x :: removeB rest n := by
        simp [removeB, hx]
      rw [h1, wfList_cons]
      exact ⟨fun hmem => h'.1 (namesOf_removeB_sub _ hmem), h'.2.1, ih h'.2.2⟩

theorem wf_replaceDir {l : List FNode} {n : String} {ch : List FNode}
    (hw : wfList l = true) (hc : wfList ch = true) :
    wfList (replaceDir l n ch) = true := by
  induction l with
  | nil => rfl
  | cons x rest ih =>
    have h' := wfList_cons.mp hw
    by_cases hx : x.name = n
    · have h1 : replaceDir (x :: rest) n ch = FNode.dir n ch :: rest := by
        simp [replaceDir, hx]
      rw [h1, wfList_cons]
      refine ⟨?_, hc, h'.2.2⟩
      rw [show (FNode.dir n ch).name = n from rfl, ← hx]
      exact h'.1
    · have h1 : replaceDir (x :: rest) n ch = x :: replaceDir rest n ch := by
        simp [replaceDir, hx]
      rw [h1, wfList_cons]
      rw [namesOf_replaceDir]
      exact ⟨h'.1, h'.2.1, ih h'.2.2⟩

theorem lastDot_append_of_some {b : List Char} {j : Nat}
    (hb : lastDot b = some j) :
    ∀ a : List Char, lastDot (a ++ b) = some (a.length + j) := by
  intro a
  induction a with
  | nil => simpa using hb
  | cons c a ih =>
    show lastDot (c :: (a ++ b)) = some (a.length + 1 + j)
    rw [lastDot, ih]
    simp
    omega

theorem getFileExtension_concat_webm (s : String) :
    getFileExtension (s ++ "." ++ OUTPUT_EXTENSION) = none ∨
      getFileExtension (s ++ "." ++ OUTPUT_EXTENSION) = some "webm" := by
  have hdata : (s ++ "." ++ OUTPUT_EXTENSION).data =
      s.data ++ ['.', 'w', 'e', 'b', 'm'] := by
    have hlit : ".".data ++ OUTPUT_EXTENSION.data = ['.', 'w', 'e', 'b', 'm'] := by
      decide
    rw [String.data_append, String.data_append, List.append_assoc, hlit]
  have hpat : lastDot ['.', 'w', 'e', 'b', 'm'] = some 0 := by decide
  have hld : lastDot (s ++ "." ++ OUTPUT_EXTENSION).toList =
      some s.data.length := by
    show lastDot (s ++ "." ++ OUTPUT_EXTENSION).data = some s.data.length
    rw [hdata]
    have := lastDot_append_of_some hpat s.data
    simpa using this
  cases hlen : s.data.length with
  | zero =>
    left
    rw [getFileExtension]
    have hext : extname (s ++ "." ++ OUTPUT_EXTENSION) = "" := by
      rw [extname, hld, hlen]
    simp [hext]
  | succ k =>
    right
    have hext : extname (s ++ "." ++ OUTPUT_EXTENSION) =
        String.mk ['.', 'w', 'e', 'b', 'm'] := by
      rw [extname, hld, hlen]
      show String.mk ((s ++ "." ++ OUTPUT_EXTENSION).toList.drop (k + 1)) = _
      rw [show (s ++ "." ++ OUTPUT_EXTENSION).toList =
        s.data ++ ['.', 'w', 'e', 'b', 'm'] from hdata]
      rw [← hlen, List.drop_left]
    rw [getFileExtension, hext]
    decide

theorem matchesSupported_concat_webm (s : String) :
    matchesSupported (s ++ "." ++ OUTPUT_EXTENSION) = false := by
  rcases getFileExtension_concat_webm s with h | h
  · simp [matchesSupported, h, extTruthy]
  · simp [matchesSupported, h, extTruthy]
    decide

theorem matchesSupported_outOf (n : String) :
    matchesSupported (outOf n) = false := by
  rw [outOf, outName]
  exact matchesSupported_concat_webm _

theorem ne_outOf_of_supported {n m : String} (hn : matchesSupported n = true) :
    n ≠ outOf m := by
  intro h
  rw [h, matchesSupported_outOf] at hn
  exact Bool.false_ne_true hn

theorem settled_mem : ∀ {l all : List FNode} {e : FNode},
    settledList all l = true → e ∈ l → settledNode all e = true := by
  intro l
  induction l with
  | nil => intro all e _ he; cases he
  | cons x rest ih =>
    intro all e h he
    rw [settledList, Bool.and_eq_true] at h
    rcases List.mem_cons.mp he with rfl | he'
    · exact h.1
    · exact ih h.2 he'

theorem settledList_of_forall : ∀ {l all : List FNode},
    (∀ e ∈ l, settledNode all e = true) → settledList all l = true := by
  intro l
  induction l with
  | nil => intro all _; rfl
  | cons x rest ih =>
    intro all h
    rw [settledList, Bool.and_eq_true]
    exact ⟨h x (List.mem_cons_self x rest),
      ih fun e he => h e (List.mem_cons_of_mem _ he)⟩

theorem settledNode_of_ok {all : List FNode} {e : FNode}
    (h : okEntryB all e) : settledNode all e = true := by
  cases e with
  | file n sz =>
    by_cases hh : strStarts "." n = true
    · simp [settledNode, hh]
    · have hh' : strStarts "." n = false := by simpa using hh
      by_cases hs : matchesSupported n = true
      · simp [settledNode, hh', hs]
        exact h hh' hs
      · have hs' : matchesSupported n = false := by simpa using hs
        simp [settledNode, hh', hs']
  | dir n ch =>
    by_cases hh : strStarts "." n = true
    · simp [settledNode, hh]
    · have hh' : strStarts "." n = false := by simpa using hh
      simp [settledNode, hh']
      exact (h hh').1

theorem statSize_none_of_not_has {l : List FNode} {m : String}
    (h : hasEntry l m = false) : statSize l m = none := by
  have hf : l.find? (fun e => e.name == m) = none := by
    rw [List.find?_eq_none]
    intro x hx
    simp [beq_eq_false_iff_ne]
    exact hasEntry_eq_false h x hx
  rw [statSize, hf]

theorem convert_not_supported {ff : Ffmpeg} {d : List String} {n : String}
    {cur : List FNode} (h : matchesSupported n = false) :
    convertVideoFile ff d n cur = ⟨[], cur, none⟩ := by
  simp [convertVideoFile, h]

theorem convert_skip {ff : Ffmpeg} {d : List String} {n : String}
    {cur : List FNode} (hsup : matchesSupported n = true)
    (hsk : hasEntry cur (outOf n) = true) :
    convertVideoFile ff d n cur =
      ⟨[TEvent.skipExists (d ++ [n])], cur, none⟩ := by
  simp [convertVideoFile, hsup, hsk]

theorem convert_fail {ff : Ffmpeg} {d : List String} {n : String}
    {cur : List FNode} {art : Option Nat}
    (hsup : matchesSupported n = true)
    (hfr : hasEntry cur (outOf n) = false)
    (hff : ff (d ++ [n]) = (false, art)) :
    convertVideoFile ff d n cur =
      ⟨[TEvent.ffmpegRun (d ++ [n])],
        (match art with
         | some sz => setFileB cur (outOf n) sz
         | none => cur),
        some (TErr.processError (d ++ [n]))⟩ := by
  cases art <;> simp [convertVideoFile, hsup, hfr, hff]

theorem convert_none_out {ff : Ffmpeg} {d : List String} {n : String}
    {cur : List FNode} (hsup : matchesSupported n = true)
    (hfr : hasEntry cur (outOf n) = false)
    (hff : ff (d ++ [n]) = (true, none)) :
    convertVideoFile ff d n cur =
      ⟨[TEvent.ffmpegRun (d ++ [n])], cur,
        some (TErr.statNotFound (d ++ [outOf n]))⟩ := by
  have hst : statSize cur (outOf n) = none := statSize_none_of_not_has hfr
  simp [convertVideoFile, hsup, hfr, hff, hst]

theorem convert_empty {ff : Ffmpeg} {d : List String} {n : String}
    {cur : List FNode} (hsup : matchesSupported n = true)
    (hfr : hasEntry cur (outOf n) = false)
    (hff : ff (d ++ [n]) = (true, some 0)) :
    convertVideoFile ff d n cur =
      ⟨[TEvent.ffmpegRun (d ++ [n])], cur ++ [FNode.file (outOf n) 0],
        some (TErr.emptyOutput (d ++ [n]))⟩ := by
  have hset := @setFileB_fresh cur (outOf n) 0 hfr
  have hst : statSize (cur ++ [FNode.file (outOf n) 0]) (outOf n) = some 0 :=
    statSize_append_fresh hfr
  simp [convertVideoFile, hsup, hfr, hff, hset, hst]

theorem convert_success {ff : Ffmpeg} {d : List String} {n : String}
    {cur : List FNode} {sz : Nat} (hsup : matchesSupported n = true)
    (hfr : hasEntry cur (outOf n) = false)
    (hff : ff (d ++ [n]) = (true, some (sz + 1))) :
    convertVideoFile ff d n cur =
      ⟨[TEvent.ffmpegRun (d ++ [n]), TEvent.removedSrc (d ++ [n])],
        removeB (cur ++ [FNode.file (outOf n) (sz + 1)]) n, none⟩ := by
  have hset := @setFileB_fresh cur (outOf n) (sz + 1) hfr
  have hst : statSize (cur ++ [FNode.file (outOf n) (sz + 1)]) (outOf n) =
      some (sz + 1) := statSize_append_fresh hfr
  simp [convertVideoFile, hsup, hfr, hff, hset, hst]

theorem scanOne_dir_hidden {ff : Ffmpeg} {d : List String} {n : String}
    {ch cur : List FNode} (h : strStarts "." n = true) :
    scanDirOne ff d (FNode.dir n ch) cur = ⟨[], cur, none⟩ := by
  simp [scanDirOne, h]

theorem scanOne_dir {ff : Ffmpeg} {d : List String} {n : String}
    {ch cur : List FNode} (h : strStarts "." n = false) :
    scanDirOne ff d (FNode.dir n ch) cur =
      ⟨(scanDirEntries ff (d ++ [n]) ch ch).events,
        replaceDir cur n (scanDirEntries ff (d ++ [n]) ch ch).state,
        (scanDirEntries ff (d ++ [n]) ch ch).err⟩ := by
  simp [scanDirOne, h]

theorem scanOne_file_hidden {ff : Ffmpeg} {d : List String} {n : String}
    {sz : Nat} {cur : List FNode} (h : strStarts "." n = true) :
    scanDirOne ff d (FNode.file n sz) cur = ⟨[], cur, none⟩ := by
  simp [scanDirOne, h]

theorem scanOne_file_sup {ff : Ffmpeg} {d : List String} {n : String}
    {sz : Nat} {cur : List FNode} (h : strStarts "." n = false)
    (hsup : matchesSupported n = true) :
    scanDirOne ff d (FNode.file n sz) cur = convertVideoFile ff d n cur := by
  simp [scanDirOne, h, hsup]

theorem scanOne_file_unsup {ff : Ffmpeg} {d : List String} {n : String}
    {sz : Nat} {cur : List FNode} (h : strStarts "." n = false)
    (hsup : matchesSupported n = false) :
    scanDirOne ff d (FNode.file n sz) cur = ⟨[], cur, none⟩ := by
  simp [scanDirOne, h, hsup]

theorem scan_nil {ff : Ffmpeg} {d : List String} {cur : List FNode} :
    scanDirEntries ff d [] cur = ⟨[], cur, none⟩ := rfl

theorem scan_cons_err {ff : Ffmpeg} {d : List String} {e : FNode}
    {rest cur : List FNode} {er : TErr}
    (h : (scanDirOne ff d e cur).err = some er) :
    scanDirEntries ff d (e :: rest) cur =
      ⟨(scanDirOne ff d e cur).events, (scanDirOne ff d e cur).state,
        some er⟩ := by
  rw [scanDirEntries, h]

theorem scan_cons_ok {ff : Ffmpeg} {d : List String} {e : FNode}
    {rest cur : List FNode} (h : (scanDirOne ff d e cur).err = none) :
    scanDirEntries ff d (e :: rest) cur =
      ⟨(scanDirOne ff d e cur).events ++
          (scanDirEntries ff d rest (scanDirOne ff d e cur).state).events,
        (scanDirEntries ff d rest (scanDirOne ff d e cur).state).state,
        (scanDirEntries ff d rest (scanDirOne ff d e cur).state).err⟩ := by
  rw [scanDirEntries, h]

/-- Main invariant of a successful transcode scan: starting from a snapshot
of a well-formed state, the run leaves a well-formed state in which every
entry satisfies the level condition `okEntryB` (supported files have their
artifact among their siblings, subdirectories are recursively settled). -/
theorem scan_ok_establishes (ff : Ffmpeg) :
    ∀ (d : List String) (snap cur : List FNode),
      (∀ e ∈ snap, e ∈ cur) →
      distinctNames (namesOf snap) = true →
      wfList cur = true →
      (∀ e ∈ cur, e.name ∉ namesOf snap → okEntryB cur e) →
      (scanDirEntries ff d snap cur).err = none →
      wfList (scanDirEntries ff d snap cur).state = true ∧
        ∀ e ∈ (scanDirEntries ff d snap cur).state,
          okEntryB (scanDirEntries ff d snap cur).state e := by
  refine scanDirEntries.induct ff
    (fun d snap cur =>
      (∀ e ∈ snap, e ∈ cur) →
      distinctNames (namesOf snap) = true →
      wfList cur = true →
      (∀ e ∈ cur, e.name ∉ namesOf snap → okEntryB cur e) →
      (scanDirEntries ff d snap cur).err = none →
      wfList (scanDirEntries ff d snap cur).state = true ∧
        ∀ e ∈ (scanDirEntries ff d snap cur).state,
          okEntryB (scanDirEntries ff d snap cur).state e)
    (fun d e cur =>
      e ∈ cur → wfList cur = true →
      (scanDirOne ff d e cur).err = none →
      wfList (scanDirOne ff d e cur).state = true ∧
      (∀ n', matchesSupported n' = false → hasEntry cur n' = true →
         hasEntry (scanDirOne ff d e cur).state n' = true) ∧
      (∀ x ∈ cur, x.name ≠ e.name → x ∈ (scanDirOne ff d e cur).state) ∧
      (∀ x ∈ (scanDirOne ff d e cur).state,
         x ∈ cur ∨ okEntryB (scanDirOne ff d e cur).state x) ∧
      (match e with
       | FNode.file n _ => strStarts "." n = false → matchesSupported n = true →
           hasEntry (scanDirOne ff d e cur).state (outOf n) = true
       | FNode.dir n _ => strStarts "." n = false →
           ∃ ch2, FNode.dir n ch2 ∈ (scanDirOne ff d e cur).state ∧
             settledList ch2 ch2 = true ∧ wfList ch2 = true))
    ?_ ?_ ?_ ?_ ?_ ?_ ?_ ?_
  · -- hidden directory
    intro d n children cur h He Hw _
    simp only [scanOne_dir_hidden h]
    refine ⟨Hw, fun n' _ h2 => h2, fun x hx _ => hx, fun x hx => Or.inl hx, ?_⟩
    intro hfalse
    exact absurd (h.symm.trans hfalse) (by decide)
  · -- non-hidden directory
    intro d n children cur h IH He Hw
    have h' : strStarts "." n = false := by simpa using h
    simp only [scanOne_dir h']
    intro herr
    have hwch : wfList children = true := by
      have := wfNode_of_mem Hw He
      simpa [wfNode] using this
    obtain ⟨hwst, hok⟩ := IH (fun e he => he) (wfList_distinct hwch) hwch
      (fun e he hmem => absurd (mem_namesOf he) hmem) herr
    have hsettled :
        settledList (scanDirEntries ff (d ++ [n]) children children).state
          (scanDirEntries ff (d ++ [n]) children children).state = true :=
      settledList_of_forall fun e he => settledNode_of_ok (hok e he)
    refine ⟨wf_replaceDir Hw hwst, ?_, ?_, ?_, ?_⟩
    · intro n' _ hhas
      rw [hasEntry_replaceDir]
      exact hhas
    · intro x hx hne
      exact mem_replaceDir_of_ne hx (by simpa [FNode.name] using hne)
    · intro x hx
      rcases mem_replaceDir x hx with h1 | rfl
      · exact Or.inl h1
      · exact Or.inr fun _ => ⟨hsettled, hwst⟩
    · intro _
      refine ⟨(scanDirEntries ff (d ++ [n]) children children).state,
        dir_mem_replaceDir ?_, hsettled, hwst⟩
      have := hasEntry_of_mem He
      simpa [FNode.name] using this
  · -- hidden file
    intro d n size cur h He Hw _
    simp only [scanOne_file_hidden h]
    refine ⟨Hw, fun n' _ h2 => h2, fun x hx _ => hx, fun x hx => Or.inl hx, ?_⟩
    intro hfalse
    exact absurd (h.symm.trans hfalse) (by decide)
  · -- supported file
    intro d n size cur h hsup He Hw
    have h' : strStarts "." n = false := by simpa using h
    simp only [scanOne_file_sup h' hsup]
    by_cases hsk : hasEntry cur (outOf n) = true
    · simp only [convert_skip hsup hsk]
      intro _
      exact ⟨Hw, fun n' _ h2 => h2, fun x hx _ => hx, fun x hx => Or.inl hx,
        fun _ _ => hsk⟩
    · have hfr : hasEntry cur (outOf n) = false := by simpa using hsk
      rcases hff : ff (d ++ [n]) with ⟨ok, art⟩
      cases ok with
      | false =>
        simp only [convert_fail hsup hfr hff]
        intro herr
        simp at herr
      | true =>
        cases art with
        | none =>
          simp only [convert_none_out hsup hfr hff]
          intro herr
          simp at herr
        | some sz =>
          cases sz with
          | zero =>
            simp only [convert_empty hsup hfr hff]
            intro herr
            simp at herr
          | succ k =>
            simp only [convert_success hsup hfr hff]
            intro _
            refine ⟨wf_removeB (wf_append_file Hw hfr), ?_, ?_, ?_, ?_⟩
            · intro n' hn' hhas
              have hne : n' ≠ n := by
                intro hc
                rw [hc, hsup] at hn'
                exact absurd hn' (by decide)
              rw [hasEntry_removeB_of_ne hne, hasEntry_append_single, hhas]
              rfl
            · intro x hx hne
              exact mem_removeB_of_ne (List.mem_append_left _ hx)
                (by simpa [FNode.name] using hne)
            · intro x hx
              rcases List.mem_append.mp (removeB_sub x hx) with hx' | hx'
              · exact Or.inl hx'
              · right
                have hxf : x = FNode.file (outOf n) (k + 1) :=
                  List.mem_singleton.mp hx'
                subst hxf
                intro _ hsup'
                exact absurd (hsup'.symm.trans (matchesSupported_outOf n))
                  (by decide)
            · intro _ _
              have hneq : outOf n ≠ n :=
                fun hc => ne_outOf_of_supported hsup hc.symm
              rw [hasEntry_removeB_of_ne hneq, hasEntry_append_single]
              simp [FNode.name]
  · -- unsupported file
    intro d n size cur h hsup He Hw _
    have h' : strStarts "." n = false := by simpa using h
    have hsup' : matchesSupported n = false := by simpa using hsup
    simp only [scanOne_file_unsup h' hsup']
    refine ⟨Hw, fun n' _ h2 => h2, fun x hx _ => hx, fun x hx => Or.inl hx, ?_⟩
    intro _ hs
    exact absurd (hs.symm.trans hsup') (by decide)
  · -- empty snapshot
    intro d cur H1 H2 Hw H5 _
    rw [scan_nil]
    exact ⟨Hw, fun e he => H5 e he (by simp [namesOf])⟩
  · -- cons, head errors
    intro d e rest cur r er herr _ H1 H2 Hw H5 habs
    have herr' : (scanDirOne ff d e cur).err = some er := herr
    rw [scan_cons_err herr'] at habs
    simp at habs
  · -- cons, head succeeds
    intro d e rest cur r herr IH2 IH1 H1 H2 Hw H5 herr2
    have herr0 : (scanDirOne ff d e cur).err = none := herr
    have He : e ∈ cur := H1 e (List.mem_cons_self e rest)
    obtain ⟨M2a, M2b, M2c, M2d, M2e⟩ := IH2 He Hw herr0
    have hd2 : e.name ∉ namesOf rest ∧ distinctNames (namesOf rest) = true :=
      distinctNames_cons.mp H2
    have H1' : ∀ x ∈ rest, x ∈ (scanDirOne ff d e cur).state := by
      intro x hx
      refine M2c x (H1 x (List.mem_cons_of_mem _ hx)) ?_
      intro hc
      exact hd2.1 (hc ▸ mem_namesOf hx)
    have H5' : ∀ x ∈ (scanDirOne ff d e cur).state,
        x.name ∉ namesOf rest → okEntryB (scanDirOne ff d e cur).state x := by
      intro x hx hxn
      rcases M2d x hx with hxcur | hok
      · by_cases hxe : x.name = e.name
        · have hx_eq : x = e := unique_of_distinct (wfList_distinct Hw) hxcur He hxe
          subst hx_eq
          cases x with
          | file nx szx =>
            intro hh hs
            exact M2e hh hs
          | dir nx chx =>
            intro hh
            obtain ⟨ch2, hmem2, hs2, hw2⟩ := M2e hh
            have hsame : FNode.dir nx chx = FNode.dir nx ch2 :=
              unique_of_distinct (wfList_distinct M2a) hx hmem2 rfl
            have hch : chx = ch2 := by
              injection hsame
            rw [hch]
            exact ⟨hs2, hw2⟩
        · have hxn' : x.name ∉ namesOf (e :: rest) := by
            intro hc
            rcases List.mem_cons.mp hc with hc | hc
            · exact hxe hc
            · exact hxn hc
          have hokcur := H5 x hxcur hxn'
          cases x with
          | file nx szx =>
            intro hh hs
            exact M2b (outOf nx) (matchesSupported_outOf nx) (hokcur hh hs)
          | dir nx chx =>
            exact hokcur
      · exact hok
    have herr3 : (scanDirEntries ff d rest (scanDirOne ff d e cur).state).err =
        none := by
      rw [scan_cons_ok herr0] at herr2
      exact herr2
    have hfin := IH1 H1' hd2.2 M2a H5' herr3
    rw [scan_cons_ok herr0]
    exact hfin

/-- A settled, well-formed state makes the transcode scan a no-op: the
state is returned unchanged, no error occurs, and every event is a skip. -/
theorem scan_settled_noop (ff : Ffmpeg) :
    ∀ (d : List String) (snap cur : List FNode),
      (∀ e ∈ snap, e ∈ cur) →
      distinctNames (namesOf cur) = true →
      (∀ e ∈ snap, settledNode cur e = true ∧ wfNode e = true) →
      (scanDirEntries ff d snap cur).state = cur ∧
      (scanDirEntries ff d snap cur).err = none ∧
      allSkipEvents (scanDirEntries ff d snap cur).events = true := by
  refine scanDirEntries.induct ff
    (fun d snap cur =>
      (∀ e ∈ snap, e ∈ cur) →
      distinctNames (namesOf cur) = true →
      (∀ e ∈ snap, settledNode cur e = true ∧ wfNode e = true) →
      (scanDirEntries ff d snap cur).state = cur ∧
      (scanDirEntries ff d snap cur).err = none ∧
      allSkipEvents (scanDirEntries ff d snap cur).events = true)
    (fun d e cur =>
      e ∈ cur → distinctNames (namesOf cur) = true →
      settledNode cur e = true → wfNode e = true →
      (scanDirOne ff d e cur).state = cur ∧
      (scanDirOne ff d e cur).err = none ∧
      allSkipEvents (scanDirOne ff d e cur).events = true)
    ?_ ?_ ?_ ?_ ?_ ?_ ?_ ?_
  · intro d n children cur h _ _ _ _
    simp only [scanOne_dir_hidden h]
    simp [allSkipEvents]
  · intro d n children cur h IH He hdist hsett hwf
    have h' : strStarts "." n = false := by simpa using h
    have hsett' : settledList children children = true := by
      simpa [settledNode, h'] using hsett
    have hwch : wfList children = true := by simpa [wfNode] using hwf
    obtain ⟨hst, herr, hev⟩ := IH (fun e he => he) (wfList_distinct hwch)
      (fun e he => ⟨settled_mem hsett' he, wfNode_of_mem hwch he⟩)
    simp only [scanOne_dir h']
    rw [hst]
    refine ⟨replaceDir_self hdist He, herr, hev⟩
  · intro d n size cur h _ _ _ _
    simp only [scanOne_file_hidden h]
    simp [allSkipEvents]
  · intro d n size cur h hsup He hdist hsett _
    have h' : strStarts "." n = false := by simpa using h
    have hsk : hasEntry cur (outOf n) = true := by
      simpa [settledNode, h', hsup] using hsett
    simp only [scanOne_file_sup h' hsup, convert_skip hsup hsk]
    simp [allSkipEvents]
  · intro d n size cur h hsup _ _ _ _
    have h' : strStarts "." n = false := by simpa using h
    have hsup' : matchesSupported n = false := by simpa using hsup
    simp only [scanOne_file_unsup h' hsup']
    simp [allSkipEvents]
  · intro d cur _ _ _
    rw [scan_nil]
    simp [allSkipEvents]
  · intro d e rest cur r er herr IH2 H1 hdist H3
    have hone := IH2 (H1 e (List.mem_cons_self e rest)) hdist
      (H3 e (List.mem_cons_self e rest)).1 (H3 e (List.mem_cons_self e rest)).2
    have herr' : (scanDirOne ff d e cur).err = some er := herr
    rw [hone.2.1] at herr'
    simp at herr'
  · intro d e rest cur r herr IH2 IH1 H1 hdist H3
    have hone := IH2 (H1 e (List.mem_cons_self e rest)) hdist
      (H3 e (List.mem_cons_self e rest)).1 (H3 e (List.mem_cons_self e rest)).2
    have herr0 : (scanDirOne ff d e cur).err = none := herr
    have hrest := IH1 (by
        rw [hone.1]
        exact fun x hx => H1 x (List.mem_cons_of_mem _ hx))
      (by rw [hone.1]; exact hdist)
      (by rw [hone.1]; exact fun x hx => H3 x (List.mem_cons_of_mem _ hx))
    rw [scan_cons_ok herr0]
    refine ⟨by rw [hone.1] at hrest ⊢; exact hrest.1,
      by rw [hone.1] at hrest ⊢; exact hrest.2.1, ?_⟩
    show allSkipEvents ((scanDirOne ff d e cur).events ++
      (scanDirEntries ff d rest (scanDirOne ff d e cur).state).events) = true
    rw [allSkipEvents, List.all_append]
    have h2 : allSkipEvents
        (scanDirEntries ff d rest (scanDirOne ff d e cur).state).events =
        true := by
      rw [hone.1] at hrest ⊢
      exact hrest.2.2
    rw [allSkipEvents] at hone h2
    rw [hone.2.2, h2]
    rfl

/-- Idempotence of the transcode batch: a fully successful run leaves a
state on which a rerun changes nothing, errs nowhere and only skips. -/
theorem transcode_idempotent {ff ff2 : Ffmpeg} {root : List FNode}
    (hw : wfList root = true)
    (hok : (runTranscode ff root).err = none) :
    (runTranscode ff2 (runTranscode ff root).state).state =
      (runTranscode ff root).state ∧
    (runTranscode ff2 (runTranscode ff root).state).err = none ∧
    allSkipEvents (runTranscode ff2 (runTranscode ff root).state).events =
      true := by
  obtain ⟨hw1, hok1⟩ := scan_ok_establishes ff [] root root (fun e he => he)
    (wfList_distinct hw) hw (fun e he hm => absurd (mem_namesOf he) hm) hok
  exact scan_settled_noop ff2 [] _ _ (fun e he => he) (wfList_distinct hw1)
    (fun e he => ⟨settledNode_of_ok (hok1 e he), wfNode_of_mem hw1 he⟩)

/-! ## Model C helper lemmas -/

theorem copy_skip {hashFn : HashFn} {move : Bool} {tgt : Tgt}
    {p : List String} {n : String} {c : List Nat}
    (h : tgtHas tgt (targetNameOf hashFn c n) = true) :
    copySingleFile hashFn move tgt p n c =
      ⟨tgt, false,
        [REvent.readFull p, REvent.statTarget (targetNameOf hashFn c n),
          REvent.skippedExisting p (targetNameOf hashFn c n)]⟩ := by
  simp [copySingleFile, h]

theorem copy_fresh {hashFn : HashFn} {move : Bool} {tgt : Tgt}
    {p : List String} {n : String} {c : List Nat}
    (h : tgtHas tgt (targetNameOf hashFn c n) = false) :
    copySingleFile hashFn move tgt p n c =
      ⟨tgt ++ [(targetNameOf hashFn c n, c)], move,
        [REvent.readFull p, REvent.statTarget (targetNameOf hashFn c n),
          REvent.copied p (targetNameOf hashFn c n)] ++
          (if move then [REvent.removedSource p] else [])⟩ := by
  cases move <;> simp [copySingleFile, h]

theorem scanCopyOne_dir_hidden {hashFn : HashFn} {exts : List String}
    {move : Bool} {d : List String} {n : String} {ch : List CNode} {tgt : Tgt}
    (h : strStarts "." n = true) :
    scanCopyOne hashFn exts move d (CNode.dir n ch) tgt =
      ⟨[CNode.dir n ch], tgt, []⟩ := by
  simp [scanCopyOne, h]

theorem scanCopyOne_dir {hashFn : HashFn} {exts : List String}
    {move : Bool} {d : List String} {n : String} {ch : List CNode} {tgt : Tgt}
    (h : strStarts "." n = false) :
    scanCopyOne hashFn exts move d (CNode.dir n ch) tgt =
      ⟨[CNode.dir n (scanAndCopyFiles hashFn exts move (d ++ [n]) ch tgt).tree],
        (scanAndCopyFiles hashFn exts move (d ++ [n]) ch tgt).target,
        (scanAndCopyFiles hashFn exts move (d ++ [n]) ch tgt).events⟩ := by
  simp [scanCopyOne, h]

theorem scanCopyOne_file_hidden {hashFn : HashFn} {exts : List String}
    {move : Bool} {d : List String} {n : String} {c : List Nat} {tgt : Tgt}
    (h : strStarts "." n = true) :
    scanCopyOne hashFn exts move d (CNode.file n c) tgt =
      ⟨[CNode.file n c], tgt, []⟩ := by
  simp [scanCopyOne, h]

theorem scanCopyOne_file_match {hashFn : HashFn} {exts : List String}
    {move : Bool} {d : List String} {n : String} {c : List Nat} {tgt : Tgt}
    (h : strStarts "." n = false) (hm : matchesExt exts n = true) :
    scanCopyOne hashFn exts move d (CNode.file n c) tgt =
      ⟨(if (copySingleFile hashFn move tgt (d ++ [n]) n c).deleted then []
          else [CNode.file n c]),
        (copySingleFile hashFn move tgt (d ++ [n]) n c).target,
        (copySingleFile hashFn move tgt (d ++ [n]) n c).events⟩ := by
  simp [scanCopyOne, h, hm]

theorem scanCopyOne_file_unmatch {hashFn : HashFn} {exts : List String}
    {move : Bool} {d : List String} {n : String} {c : List Nat} {tgt : Tgt}
    (h : strStarts "." n = false) (hm : matchesExt exts n = false) :
    scanCopyOne hashFn exts move d (CNode.file n c) tgt =
      ⟨[CNode.file n c], tgt, []⟩ := by
  simp [scanCopyOne, h, hm]

theorem scanCopy_nil {hashFn : HashFn} {exts : List String} {move : Bool}
    {d : List String} {tgt : Tgt} :
    scanAndCopyFiles hashFn exts move d [] tgt = ⟨[], tgt, []⟩ := rfl

theorem scanCopy_cons {hashFn : HashFn} {exts : List String} {move : Bool}
    {d : List String} {e : CNode} {rest : List CNode} {tgt : Tgt} :
    scanAndCopyFiles hashFn exts move d (e :: rest) tgt =
      ⟨(scanCopyOne hashFn exts move d e tgt).tree ++
          (scanAndCopyFiles hashFn exts move d rest
            (scanCopyOne hashFn exts move d e tgt).target).tree,
        (scanAndCopyFiles hashFn exts move d rest
          (scanCopyOne hashFn exts move d e tgt).target).target,
        (scanCopyOne hashFn exts move d e tgt).events ++
          (scanAndCopyFiles hashFn exts move d rest
            (scanCopyOne hashFn exts move d e tgt).target).events⟩ := by
  rw [scanAndCopyFiles]

theorem tgtHas_append {t1 t2 : Tgt} {x : String} :
    tgtHas (t1 ++ t2) x = (tgtHas t1 x || tgtHas t2 x) := by
  simp [tgtHas, List.any_append]

/-- The target directory only grows during a copy run. -/
theorem scanCopy_target_mono (hashFn : HashFn) (exts : List String)
    (move : Bool) :
    ∀ (d : List String) (snap : List CNode) (tgt : Tgt),
      ∃ add, (scanAndCopyFiles hashFn exts move d snap tgt).target =
        tgt ++ add := by
  refine scanAndCopyFiles.induct hashFn exts move
    (fun d snap tgt => ∃ add,
      (scanAndCopyFiles hashFn exts move d snap tgt).target = tgt ++ add)
    (fun d e tgt => ∃ add,
      (scanCopyOne hashFn exts move d e tgt).target = tgt ++ add)
    ?_ ?_ ?_ ?_ ?_ ?_ ?_
  · intro d n children tgt h
    rw [scanCopyOne_dir_hidden h]
    exact ⟨[], by simp⟩
  · intro d n children tgt h IH
    have h' : strStarts "." n = false := by simpa using h
    rw [scanCopyOne_dir h']
    exact IH
  · intro d n c tgt h
    rw [scanCopyOne_file_hidden h]
    exact ⟨[], by simp⟩
  · intro d n c tgt h hm
    have h' : strStarts "." n = false := by simpa using h
    rw [scanCopyOne_file_match h' hm]
    by_cases hsk : tgtHas tgt (targetNameOf hashFn c n) = true
    · rw [copy_skip hsk]
      exact ⟨[], by simp⟩
    · have hf : tgtHas tgt (targetNameOf hashFn c n) = false := by simpa using hsk
      rw [copy_fresh hf]
      exact ⟨[(targetNameOf hashFn c n, c)], rfl⟩
  · intro d n c tgt h hm
    have h' : strStarts "." n = false := by simpa using h
    have hm' : matchesExt exts n = false := by simpa using hm
    rw [scanCopyOne_file_unmatch h' hm']
    exact ⟨[], by simp⟩
  · intro d tgt
    rw [scanCopy_nil]
    exact ⟨[], by simp⟩
  · intro d e rest tgt r1 IH2 IH1
    rw [scanCopy_cons]
    obtain ⟨a1, h1⟩ := IH2
    obtain ⟨a2, h2⟩ := IH1
    refine ⟨a1 ++ a2, ?_⟩
    show (scanAndCopyFiles hashFn exts move d rest
      (scanCopyOne hashFn exts move d e tgt).target).target = tgt ++ (a1 ++ a2)
    rw [h2, h1, List.append_assoc]

theorem tgtHas_mono {hashFn : HashFn} {exts : List String} {move : Bool}
    {d : List String} {snap : List CNode} {tgt : Tgt} {x : String}
    (h : tgtHas tgt x = true) :
    tgtHas (scanAndCopyFiles hashFn exts move d snap tgt).target x = true := by
  obtain ⟨add, hadd⟩ := scanCopy_target_mono hashFn exts move d snap tgt
  rw [hadd, tgtHas_append, h]
  rfl

theorem csettled_mono (hashFn : HashFn) (exts : List String) (tgt add : Tgt) :
    ∀ l : List CNode, csettled hashFn exts tgt l = true →
      csettled hashFn exts (tgt ++ add) l = true := by
  refine csettled.induct hashFn exts tgt
    (fun l => csettled hashFn exts tgt l = true →
      csettled hashFn exts (tgt ++ add) l = true)
    (fun e => csettledNode hashFn exts tgt e = true →
      csettledNode hashFn exts (tgt ++ add) e = true)
    ?_ ?_ ?_ ?_ ?_ ?_ ?_
  · intro n c hh _
    simp [csettledNode, hh]
  · intro n c hh hm h
    have hh' : strStarts "." n = false := by simpa using hh
    simp [csettledNode, hh', hm] at h ⊢
    rw [tgtHas_append, h]
    rfl
  · intro n c hh hm _
    have hh' : strStarts "." n = false := by simpa using hh
    have hm' : matchesExt exts n = false := by simpa using hm
    simp [csettledNode, hh', hm']
  · intro n ch hh _
    simp [csettledNode, hh]
  · intro n ch hh IH h
    have hh' : strStarts "." n = false := by simpa using hh
    simp [csettledNode, hh'] at h ⊢
    exact IH h
  · intro _
    rfl
  · intro e rest IH2 IH1 h
    rw [csettled, Bool.and_eq_true] at h
    rw [csettled, Bool.and_eq_true]
    exact ⟨IH2 h.1, IH1 h.2⟩

theorem csettled_append {hashFn : HashFn} {exts : List String} {tgt : Tgt}
    {l1 l2 : List CNode} :
    csettled hashFn exts tgt (l1 ++ l2) =
      (csettled hashFn exts tgt l1 && csettled hashFn exts tgt l2) := by
  induction l1 with
  | nil => simp [csettled]
  | cons e rest ih =>
    rw [List.cons_append, csettled, csettled, ih, Bool.and_assoc]

/-- After any copy run, the surviving tree is settled with respect to the
final target: every remaining matching file's content-addressed name is
present in the target directory. -/
theorem scanCopy_establishes (hashFn : HashFn) (exts : List String)
    (move : Bool) :
    ∀ (d : List String) (snap : List CNode) (tgt : Tgt),
      csettled hashFn exts
        (scanAndCopyFiles hashFn exts move d snap tgt).target
        (scanAndCopyFiles hashFn exts move d snap tgt).tree = true := by
  refine scanAndCopyFiles.induct hashFn exts move
    (fun d snap tgt =>
      csettled hashFn exts
        (scanAndCopyFiles hashFn exts move d snap tgt).target
        (scanAndCopyFiles hashFn exts move d snap tgt).tree = true)
    (fun d e tgt =>
      csettled hashFn exts
        (scanCopyOne hashFn exts move d e tgt).target
        (scanCopyOne hashFn exts move d e tgt).tree = true)
    ?_ ?_ ?_ ?_ ?_ ?_ ?_
  · intro d n children tgt h
    rw [scanCopyOne_dir_hidden h]
    simp [csettled, csettledNode, h]
  · intro d n children tgt h IH
    have h' : strStarts "." n = false := by simpa using h
    rw [scanCopyOne_dir h']
    simp [csettled, csettledNode, h']
    exact IH
  · intro d n c tgt h
    rw [scanCopyOne_file_hidden h]
    simp [csettled, csettledNode, h]
  · intro d n c tgt h hm
    have h' : strStarts "." n = false := by simpa using h
    rw [scanCopyOne_file_match h' hm]
    by_cases hsk : tgtHas tgt (targetNameOf hashFn c n) = true
    · rw [copy_skip hsk]
      simp [csettled, csettledNode, h', hm, hsk]
    · have hf : tgtHas tgt (targetNameOf hashFn c n) = false := by simpa using hsk
      rw [copy_fresh hf]
      cases move
      · simp [csettled, csettledNode, h', hm, tgtHas_append, tgtHas]
      · simp [csettled]
  · intro d n c tgt h hm
    have h' : strStarts "." n = false := by simpa using h
    have hm' : matchesExt exts n = false := by simpa using hm
    rw [scanCopyOne_file_unmatch h' hm']
    simp [csettled, csettledNode, h', hm']
  · intro d tgt
    rw [scanCopy_nil]
    rfl
  · intro d e rest tgt r1 IH2 IH1
    rw [scanCopy_cons]
    show csettled hashFn exts _ (_ ++ _) = true
    rw [csettled_append, Bool.and_eq_true]
    constructor
    · obtain ⟨add, hadd⟩ := scanCopy_target_mono hashFn exts move d rest
        (scanCopyOne hashFn exts move d e tgt).target
      rw [hadd]
      exact csettled_mono hashFn exts _ add _ IH2
    · exact IH1

/-- A settled source tree makes the copy scan a no-op on the filesystem:
tree and target are returned unchanged and no event writes or removes. -/
theorem scanCopy_settled_noop (hashFn : HashFn) (exts : List String)
    (move : Bool) :
    ∀ (d : List String) (snap : List CNode) (tgt : Tgt),
      csettled hashFn exts tgt snap = true →
      (scanAndCopyFiles hashFn exts move d snap tgt).tree = snap ∧
      (scanAndCopyFiles hashFn exts move d snap tgt).target = tgt ∧
      noWriteEvents (scanAndCopyFiles hashFn exts move d snap tgt).events =
        true := by
  refine scanAndCopyFiles.induct hashFn exts move
    (fun d snap tgt =>
      csettled hashFn exts tgt snap = true →
      (scanAndCopyFiles hashFn exts move d snap tgt).tree = snap ∧
      (scanAndCopyFiles hashFn exts move d snap tgt).target = tgt ∧
      noWriteEvents (scanAndCopyFiles hashFn exts move d snap tgt).events =
        true)
    (fun d e tgt =>
      csettledNode hashFn exts tgt e = true →
      (scanCopyOne hashFn exts move d e tgt).tree = [e] ∧
      (scanCopyOne hashFn exts move d e tgt).target = tgt ∧
      noWriteEvents (scanCopyOne hashFn exts move d e tgt).events = true)
    ?_ ?_ ?_ ?_ ?_ ?_ ?_
  · intro d n children tgt h _
    rw [scanCopyOne_dir_hidden h]
    simp [noWriteEvents]
  · intro d n children tgt h IH hs
    have h' : strStarts "." n = false := by simpa using h
    have hs' : csettled hashFn exts tgt children = true := by
      simpa [csettledNode, h'] using hs
    obtain ⟨h1, h2, h3⟩ := IH hs'
    rw [scanCopyOne_dir h']
    rw [h1, h2]
    exact ⟨rfl, rfl, h3⟩
  · intro d n c tgt h _
    rw [scanCopyOne_file_hidden h]
    simp [noWriteEvents]
  · intro d n c tgt h hm hs
    have h' : strStarts "." n = false := by simpa using h
    have hsk : tgtHas tgt (targetNameOf hashFn c n) = true := by
      simpa [csettledNode, h', hm] using hs
    rw [scanCopyOne_file_match h' hm, copy_skip hsk]
    simp [noWriteEvents]
  · intro d n c tgt h hm _
    have h' : strStarts "." n = false := by simpa using h
    have hm' : matchesExt exts n = false := by simpa using hm
    rw [scanCopyOne_file_unmatch h' hm']
    simp [noWriteEvents]
  · intro d tgt _
    rw [scanCopy_nil]
    simp [noWriteEvents]
  · intro d e rest tgt r1 IH2 IH1 hs
    rw [csettled, Bool.and_eq_true] at hs
    obtain ⟨h1, h2, h3⟩ := IH2 hs.1
    have h2' : (scanCopyOne hashFn exts move d e tgt).target = tgt := h2
    rw [scanCopy_cons]
    have hrest := IH1 (by rw [h2']; exact hs.2)
    rw [h2'] at hrest
    obtain ⟨h4, h5, h6⟩ := hrest
    refine ⟨?_, ?_, ?_⟩
    · show (scanCopyOne hashFn exts move d e tgt).tree ++
        (scanAndCopyFiles hashFn exts move d rest
          (scanCopyOne hashFn exts move d e tgt).target).tree = e :: rest
      rw [h2', h1, h4]
      rfl
    · show (scanAndCopyFiles hashFn exts move d rest
        (scanCopyOne hashFn exts move d e tgt).target).target = tgt
      rw [h2', h5]
    · show noWriteEvents ((scanCopyOne hashFn exts move d e tgt).events ++
        (scanAndCopyFiles hashFn exts move d rest
          (scanCopyOne hashFn exts move d e tgt).target).events) = true
      rw [noWriteEvents, List.all_append]
      rw [noWriteEvents] at h3 h6
      rw [h2', h3, h6]
      rfl

/-- Idempotence of the hash-rename batch: rerunning on the surviving tree
and grown target changes nothing and performs no write or removal. -/
theorem copy_idempotent (hashFn : HashFn) (exts : List String) (move : Bool)
    (root : List CNode) (tgt : Tgt) :
    (runCopy hashFn exts move (runCopy hashFn exts move root tgt).tree
      (runCopy hashFn exts move root tgt).target).tree =
        (runCopy hashFn exts move root tgt).tree ∧
    (runCopy hashFn exts move (runCopy hashFn exts move root tgt).tree
      (runCopy hashFn exts move root tgt).target).target =
        (runCopy hashFn exts move root tgt).target ∧
    noWriteEvents (runCopy hashFn exts move
      (runCopy hashFn exts move root tgt).tree
      (runCopy hashFn exts move root tgt).target).events = true :=
  scanCopy_settled_noop hashFn exts move [] _ _
    (scanCopy_establishes hashFn exts move [] root tgt)

theorem copiedNames_append {l1 l2 : List REvent} :
    copiedNames (l1 ++ l2) = copiedNames l1 ++ copiedNames l2 := by
  induction l1 with
  | nil => rfl
  | cons e rest ih =>
    cases e <;> simp [copiedNames, ih]

theorem countReads_append {l1 l2 : List REvent} :
    countReads (l1 ++ l2) = countReads l1 + countReads l2 := by
  induction l1 with
  | nil => simp [countReads]
  | cons e rest ih =>
    cases e <;> simp [countReads, ih] <;> omega

theorem scanCopyOne_target_mono {hashFn : HashFn} {exts : List String}
    {move : Bool} {d : List String} {e : CNode} {tgt : Tgt} :
    ∃ add, (scanCopyOne hashFn exts move d e tgt).target = tgt ++ add := by
  cases e with
  | dir n ch =>
    by_cases h : strStarts "." n = true
    · rw [scanCopyOne_dir_hidden h]
      exact ⟨[], by simp⟩
    · have h' : strStarts "." n = false := by simpa using h
      rw [scanCopyOne_dir h']
      exact scanCopy_target_mono hashFn exts move (d ++ [n]) ch tgt
  | file n c =>
    by_cases h : strStarts "." n = true
    · rw [scanCopyOne_file_hidden h]
      exact ⟨[], by simp⟩
    · have h' : strStarts "." n = false := by simpa using h
      by_cases hm : matchesExt exts n = true
      · rw [scanCopyOne_file_match h' hm]
        by_cases hsk : tgtHas tgt (targetNameOf hashFn c n) = true
        · rw [copy_skip hsk]
          exact ⟨[], by simp⟩
        · have hf : tgtHas tgt (targetNameOf hashFn c n) = false := by
            simpa using hsk
          rw [copy_fresh hf]
          exact ⟨[(targetNameOf hashFn c n, c)], rfl⟩
      · have hm' : matchesExt exts n = false := by simpa using hm
        rw [scanCopyOne_file_unmatch h' hm']
        exact ⟨[], by simp⟩

/-- Copy events never write the same target name twice in one run, never
write a name already present in the initial target, and every written name
is present in the final target. -/
theorem scanCopy_copied (hashFn : HashFn) (exts : List String) (move : Bool) :
    ∀ (d : List String) (snap : List CNode) (tgt : Tgt),
      (copiedNames (scanAndCopyFiles hashFn exts move d snap tgt).events).Nodup ∧
      (∀ t ∈ copiedNames (scanAndCopyFiles hashFn exts move d snap tgt).events,
        tgtHas tgt t = false) ∧
      (∀ t ∈ copiedNames (scanAndCopyFiles hashFn exts move d snap tgt).events,
        tgtHas (scanAndCopyFiles hashFn exts move d snap tgt).target t =
          true) := by
  refine scanAndCopyFiles.induct hashFn exts move
    (fun d snap tgt =>
      (copiedNames (scanAndCopyFiles hashFn exts move d snap tgt).events).Nodup ∧
      (∀ t ∈ copiedNames (scanAndCopyFiles hashFn exts move d snap tgt).events,
        tgtHas tgt t = false) ∧
      (∀ t ∈ copiedNames (scanAndCopyFiles hashFn exts move d snap tgt).events,
        tgtHas (scanAndCopyFiles hashFn exts move d snap tgt).target t = true))
    (fun d e tgt =>
      (copiedNames (scanCopyOne hashFn exts move d e tgt).events).Nodup ∧
      (∀ t ∈ copiedNames (scanCopyOne hashFn exts move d e tgt).events,
        tgtHas tgt t = false) ∧
      (∀ t ∈ copiedNames (scanCopyOne hashFn exts move d e tgt).events,
        tgtHas (scanCopyOne hashFn exts move d e tgt).target t = true))
    ?_ ?_ ?_ ?_ ?_ ?_ ?_
  · intro d n children tgt h
    rw [scanCopyOne_dir_hidden h]
    simp [copiedNames]
  · intro d n children tgt h IH
    have h' : strStarts "." n = false := by simpa using h
    rw [scanCopyOne_dir h']
    exact IH
  · intro d n c tgt h
    rw [scanCopyOne_file_hidden h]
    simp [copiedNames]
  · intro d n c tgt h hm
    have h' : strStarts "." n = false := by simpa using h
    rw [scanCopyOne_file_match h' hm]
    by_cases hsk : tgtHas tgt (targetNameOf hashFn c n) = true
    · rw [copy_skip hsk]
      simp [copiedNames]
    · have hf : tgtHas tgt (targetNameOf hashFn c n) = false := by
        simpa using hsk
      rw [copy_fresh hf]
      have hfr : ∀ a : String, ∀ b : List Nat, (a, b) ∈ tgt →
          ¬a = targetNameOf hashFn c n := by
        intro a b hab hcon
        have hc : tgtHas tgt (targetNameOf hashFn c n) = true :=
          List.any_eq_true.mpr ⟨(a, b), hab, by simp [hcon]⟩
        rw [hf] at hc
        exact Bool.false_ne_true hc
      cases move
      · simp [copiedNames, hf, tgtHas_append, tgtHas]
        exact hfr
      · simp [copiedNames, hf, tgtHas_append, tgtHas]
        exact hfr
  · intro d n c tgt h hm
    have h' : strStarts "." n = false := by simpa using h
    have hm' : matchesExt exts n = false := by simpa using hm
    rw [scanCopyOne_file_unmatch h' hm']
    simp [copiedNames]
  · intro d tgt
    rw [scanCopy_nil]
    simp [copiedNames]
  · intro d e rest tgt r1 IH2 IH1
    obtain ⟨n1, d1, f1⟩ := IH2
    obtain ⟨n2, d2, f2⟩ := IH1
    rw [scanCopy_cons]
    show (copiedNames (_ ++ _)).Nodup ∧ _
    rw [copiedNames_append]
    refine ⟨?_, ?_, ?_⟩
    · rw [List.nodup_append]
      refine ⟨n1, n2, ?_⟩
      intro t ht1 ht2
      have hin := f1 t ht1
      have hout := d2 t ht2
      rw [hin] at hout
      simp at hout
    · intro t ht
      rcases List.mem_append.mp ht with ht | ht
      · exact d1 t ht
      · cases htgt : tgtHas tgt t
        · rfl
        · exfalso
          obtain ⟨add, hadd⟩ :=
            @scanCopyOne_target_mono hashFn exts move d e tgt
          have := d2 t ht
          rw [hadd, tgtHas_append, htgt] at this
          simp at this
    · intro t ht
      rcases List.mem_append.mp ht with ht | ht
      · exact tgtHas_mono (f1 t ht)
      · exact f2 t ht

/-- Every visited matching file is read in full: the number of full reads
equals the number of matching reachable files, on every run. -/
theorem scanCopy_reads (hashFn : HashFn) (exts : List String) (move : Bool) :
    ∀ (d : List String) (snap : List CNode) (tgt : Tgt),
      countReads (scanAndCopyFiles hashFn exts move d snap tgt).events =
        matchedCount exts snap := by
  refine scanAndCopyFiles.induct hashFn exts move
    (fun d snap tgt =>
      countReads (scanAndCopyFiles hashFn exts move d snap tgt).events =
        matchedCount exts snap)
    (fun d e tgt =>
      countReads (scanCopyOne hashFn exts move d e tgt).events =
        matchedCountNode exts e)
    ?_ ?_ ?_ ?_ ?_ ?_ ?_
  · intro d n children tgt h
    rw [scanCopyOne_dir_hidden h]
    simp [countReads, matchedCountNode, h]
  · intro d n children tgt h IH
    have h' : strStarts "." n = false := by simpa using h
    rw [scanCopyOne_dir h']
    simp [matchedCountNode, h']
    exact IH
  · intro d n c tgt h
    rw [scanCopyOne_file_hidden h]
    simp [countReads, matchedCountNode, h]
  · intro d n c tgt h hm
    have h' : strStarts "." n = false := by simpa using h
    rw [scanCopyOne_file_match h' hm]
    by_cases hsk : tgtHas tgt (targetNameOf hashFn c n) = true
    · rw [copy_skip hsk]
      simp [countReads, matchedCountNode, h', hm]
    · have hf : tgtHas tgt (targetNameOf hashFn c n) = false := by
        simpa using hsk
      rw [copy_fresh hf]
      cases move <;> simp [countReads, matchedCountNode, h', hm]
  · intro d n c tgt h hm
    have h' : strStarts "." n = false := by simpa using h
    have hm' : matchesExt exts n = false := by simpa using hm
    rw [scanCopyOne_file_unmatch h' hm']
    simp [countReads, matchedCountNode, h', hm']
  · intro d tgt
    rw [scanCopy_nil]
    simp [countReads, matchedCount]
  · intro d e rest tgt r1 IH2 IH1
    rw [scanCopy_cons]
    show countReads (_ ++ _) = _
    rw [countReads_append, matchedCount, IH2, IH1]

theorem copy_events_shape (hashFn : HashFn) (move : Bool) (tgt : Tgt)
    (p : List String) (n : String) (c : List Nat) :
    ∃ rest, (copySingleFile hashFn move tgt p n c).events =
      REvent.readFull p ::
        REvent.statTarget (targetNameOf hashFn c n) :: rest := by
  by_cases hsk : tgtHas tgt (targetNameOf hashFn c n) = true
  · rw [copy_skip hsk]
    exact ⟨_, rfl⟩
  · have hf : tgtHas tgt (targetNameOf hashFn c n) = false := by simpa using hsk
    rw [copy_fresh hf]
    exact ⟨_, rfl⟩

theorem cleanFrom_intro {d q : List String}
    (h : ∀ c ∈ q, strStarts "." c = false) : cleanFrom d (d ++ q) = true := by
  rw [cleanFrom, Bool.and_eq_true]
  constructor
  · rw [List.isPrefixOf_iff_prefix]
    exact ⟨q, rfl⟩
  · rw [List.drop_left, List.all_eq_true]
    intro c hc
    simp [h c hc]

theorem cleanFrom_elim {d p : List String} (h : cleanFrom d p = true) :
    ∃ q, p = d ++ q ∧ ∀ c ∈ q, strStarts "." c = false := by
  rw [cleanFrom, Bool.and_eq_true] at h
  obtain ⟨q, hq⟩ := List.isPrefixOf_iff_prefix.mp h.1
  refine ⟨q, hq.symm, ?_⟩
  intro c hc
  have := List.all_eq_true.mp h.2 c (by rw [← hq, List.drop_left]; exact hc)
  simpa using this

theorem srcPathOk_step {d : List String} {n : String} {p : List String}
    (hn : strStarts "." n = false) (h : srcPathOk (d ++ [n]) p = true) :
    srcPathOk d p = true := by
  rw [srcPathOk, Bool.and_eq_true] at h ⊢
  obtain ⟨q, rfl, hq⟩ := cleanFrom_elim h.1
  refine ⟨?_, h.2⟩
  rw [List.append_assoc]
  refine cleanFrom_intro ?_
  intro c hc
  rcases List.mem_cons.mp (by simpa using hc) with rfl | hc'
  · exact hn
  · exact hq c hc'

theorem srcPathOk_base {d : List String} {n : String}
    (hn : strStarts "." n = false) (hm : matchesSupported n = true) :
    srcPathOk d (d ++ [n]) = true := by
  rw [srcPathOk, Bool.and_eq_true]
  refine ⟨cleanFrom_intro ?_, ?_⟩
  · intro c hc
    rcases List.mem_singleton.mp hc with rfl
    exact hn
  · rw [List.getLast?_concat]
    exact hm

theorem srcPathOkC_step {exts : List String} {d : List String} {n : String}
    {p : List String} (hn : strStarts "." n = false)
    (h : srcPathOkC exts (d ++ [n]) p = true) : srcPathOkC exts d p = true := by
  rw [srcPathOkC, Bool.and_eq_true] at h ⊢
  obtain ⟨q, rfl, hq⟩ := cleanFrom_elim h.1
  refine ⟨?_, h.2⟩
  rw [List.append_assoc]
  refine cleanFrom_intro ?_
  intro c hc
  rcases List.mem_cons.mp (by simpa using hc) with rfl | hc'
  · exact hn
  · exact hq c hc'

theorem srcPathOkC_base {exts : List String} {d : List String} {n : String}
    (hn : strStarts "." n = false) (hm : matchesExt exts n = true) :
    srcPathOkC exts d (d ++ [n]) = true := by
  rw [srcPathOkC, Bool.and_eq_true]
  refine ⟨cleanFrom_intro ?_, ?_⟩
  · intro c hc
    rcases List.mem_singleton.mp hc with rfl
    exact hn
  · rw [List.getLast?_concat]
    exact hm

theorem keepA_of_mem_snapshot_names {s : List AEntry} {n : String}
    (h : n ∈ namesA (snapshot s)) : keepA n = true := by
  rcases List.mem_map.mp h with ⟨e, he, rfl⟩
  exact snapshot_keep e he

/-- Excluded entries of the working directory (hidden names and `.ts`
names) survive an archive run untouched, and no event processes them. -/
theorem runArchive_excluded {tool : SevenZip} {s : List AEntry} {e : AEntry}
    (he : e ∈ s) (hex : keepA e.name = false) :
    e ∈ (runArchive tool s).1 ∧
    ∀ ev ∈ (runArchive tool s).2.2, ∀ i, itemOfEvent ev = some i →
      i ≠ e.name := by
  constructor
  · refine runItems_preserves he ?_
    intro hmem
    have := keepA_of_mem_snapshot_names hmem
    rw [hex] at this
    exact Bool.false_ne_true this
  · intro ev hev i hi hie
    have hmem := runItems_event_item ev hev i hi
    have := keepA_of_mem_snapshot_names hmem
    rw [hie, hex] at this
    exact Bool.false_ne_true this

/-- In the copy model: every event's source path is clean (no hidden
component below the root) and names a file passing the extension filter;
hidden entries and non-matching files survive in place. -/
theorem scanCopy_excluded (hashFn : HashFn) (exts : List String)
    (move : Bool) :
    ∀ (d : List String) (snap : List CNode) (tgt : Tgt),
      (∀ ev ∈ (scanAndCopyFiles hashFn exts move d snap tgt).events,
        ∀ p, rpathOf ev = some p → srcPathOkC exts d p = true) ∧
      (∀ e ∈ snap,
        (strStarts "." (CNode.name e) = true ∨
          (∃ n c, e = CNode.file n c ∧ matchesExt exts n = false)) →
        e ∈ (scanAndCopyFiles hashFn exts move d snap tgt).tree) := by
  refine scanAndCopyFiles.induct hashFn exts move
    (fun d snap tgt =>
      (∀ ev ∈ (scanAndCopyFiles hashFn exts move d snap tgt).events,
        ∀ p, rpathOf ev = some p → srcPathOkC exts d p = true) ∧
      (∀ e ∈ snap,
        (strStarts "." (CNode.name e) = true ∨
          (∃ n c, e = CNode.file n c ∧ matchesExt exts n = false)) →
        e ∈ (scanAndCopyFiles hashFn exts move d snap tgt).tree))
    (fun d e tgt =>
      (∀ ev ∈ (scanCopyOne hashFn exts move d e tgt).events,
        ∀ p, rpathOf ev = some p → srcPathOkC exts d p = true) ∧
      ((strStarts "." (CNode.name e) = true ∨
          (∃ n c, e = CNode.file n c ∧ matchesExt exts n = false)) →
        (scanCopyOne hashFn exts move d e tgt).tree = [e]))
    ?_ ?_ ?_ ?_ ?_ ?_ ?_
  · intro d n children tgt h
    rw [scanCopyOne_dir_hidden h]
    exact ⟨fun ev hev p hp => absurd hev (List.not_mem_nil ev), fun _ => rfl⟩
  · intro d n children tgt h IH
    have h' : strStarts "." n = false := by simpa using h
    rw [scanCopyOne_dir h']
    constructor
    · intro ev hev p hp
      exact srcPathOkC_step h' (IH.1 ev hev p hp)
    · intro hcond
      rcases hcond with hh | ⟨n', c', heq, _⟩
      · rw [show CNode.name (CNode.dir n children) = n from rfl] at hh
        rw [hh] at h'
        exact absurd h' (by decide)
      · cases heq
  · intro d n c tgt h
    rw [scanCopyOne_file_hidden h]
    exact ⟨fun ev hev p hp => absurd hev (List.not_mem_nil ev), fun _ => rfl⟩
  · intro d n c tgt h hm
    have h' : strStarts "." n = false := by simpa using h
    rw [scanCopyOne_file_match h' hm]
    constructor
    · intro ev hev p hp
      have hpath : ∀ ev' ∈ (copySingleFile hashFn move tgt (d ++ [n]) n c).events,
          ∀ p', rpathOf ev' = some p' → p' = d ++ [n] := by
        intro ev' hev' p' hp'
        by_cases hsk : tgtHas tgt (targetNameOf hashFn c n) = true
        · rw [copy_skip hsk] at hev'
          simp at hev'
          rcases hev' with rfl | rfl | rfl
          · simp [rpathOf] at hp'
            exact hp'.symm
          · simp [rpathOf] at hp'
          · simp [rpathOf] at hp'
            exact hp'.symm
        · have hf : tgtHas tgt (targetNameOf hashFn c n) = false := by
            simpa using hsk
          rw [copy_fresh hf] at hev'
          cases move with
          | false =>
            simp at hev'
            rcases hev' with rfl | rfl | rfl
            · simp [rpathOf] at hp'
              exact hp'.symm
            · simp [rpathOf] at hp'
            · simp [rpathOf] at hp'
              exact hp'.symm
          | true =>
            simp at hev'
            rcases hev' with rfl | rfl | rfl | rfl
            · simp [rpathOf] at hp'
              exact hp'.symm
            · simp [rpathOf] at hp'
            · simp [rpathOf] at hp'
              exact hp'.symm
            · simp [rpathOf] at hp'
              exact hp'.symm
      rw [hpath ev hev p hp]
      exact srcPathOkC_base h' hm
    · intro hcond
      rcases hcond with hh | ⟨n', c', heq, hm'⟩
      · rw [show CNode.name (CNode.file n c) = n from rfl] at hh
        rw [hh] at h'
        exact absurd h' (by decide)
      · cases heq
        rw [hm] at hm'
        exact absurd hm' (by decide)
  · intro d n c tgt h hm
    have h' : strStarts "." n = false := by simpa using h
    have hm' : matchesExt exts n = false := by simpa using hm
    rw [scanCopyOne_file_unmatch h' hm']
    exact ⟨fun ev hev p hp => absurd hev (List.not_mem_nil ev), fun _ => rfl⟩
  · intro d tgt
    rw [scanCopy_nil]
    exact ⟨fun ev hev p hp => absurd hev (List.not_mem_nil ev),
      fun e he => absurd he (List.not_mem_nil e)⟩
  · intro d e rest tgt r1 IH2 IH1
    rw [scanCopy_cons]
    constructor
    · intro ev hev p hp
      rcases List.mem_append.mp hev with hev | hev
      · exact IH2.1 ev hev p hp
      · exact IH1.1 ev hev p hp
    · intro x hx hcond
      rcases List.mem_cons.mp hx with rfl | hx'
      · rw [List.mem_append]
        left
        rw [IH2.2 hcond]
        exact List.mem_singleton.mpr rfl
      · rw [List.mem_append]
        right
        exact IH1.2 x hx' hcond

theorem hidden_ne {a b : String} (ha : strStarts "." a = true)
    (hb : strStarts "." b = false) : a ≠ b := by
  intro hc
  rw [hc, hb] at ha
  exact Bool.false_ne_true ha

/-- In the transcode model: every event's source path is clean (no hidden
component below the root) and names a file passing the conversion filter;
hidden entries survive in place, even across an aborted run. -/
theorem scan_excluded (ff : Ffmpeg) :
    ∀ (d : List String) (snap cur : List FNode),
      (∀ ev ∈ (scanDirEntries ff d snap cur).events,
        srcPathOk d (tpathOf ev) = true) ∧
      (∀ e ∈ cur, strStarts "." (FNode.name e) = true →
        e ∈ (scanDirEntries ff d snap cur).state) := by
  refine scanDirEntries.induct ff
    (fun d snap cur =>
      (∀ ev ∈ (scanDirEntries ff d snap cur).events,
        srcPathOk d (tpathOf ev) = true) ∧
      (∀ e ∈ cur, strStarts "." (FNode.name e) = true →
        e ∈ (scanDirEntries ff d snap cur).state))
    (fun d e cur =>
      (∀ ev ∈ (scanDirOne ff d e cur).events,
        srcPathOk d (tpathOf ev) = true) ∧
      (∀ x ∈ cur, strStarts "." (FNode.name x) = true →
        x ∈ (scanDirOne ff d e cur).state))
    ?_ ?_ ?_ ?_ ?_ ?_ ?_ ?_
  · intro d n children cur h
    rw [scanOne_dir_hidden h]
    exact ⟨fun ev hev => absurd hev (List.not_mem_nil ev), fun x hx _ => hx⟩
  · intro d n children cur h IH
    have h' : strStarts "." n = false := by simpa using h
    rw [scanOne_dir h']
    constructor
    · intro ev hev
      exact srcPathOk_step h' (IH.1 ev hev)
    · intro x hx hhid
      exact mem_replaceDir_of_ne hx (hidden_ne hhid h')
  · intro d n size cur h
    rw [scanOne_file_hidden h]
    exact ⟨fun ev hev => absurd hev (List.not_mem_nil ev), fun x hx _ => hx⟩
  · intro d n size cur h hsup
    have h' : strStarts "." n = false := by simpa using h
    rw [scanOne_file_sup h' hsup]
    by_cases hsk : hasEntry cur (outOf n) = true
    · rw [convert_skip hsup hsk]
      constructor
      · intro ev hev
        rcases List.mem_singleton.mp hev with rfl
        exact srcPathOk_base h' hsup
      · exact fun x hx _ => hx
    · have hfr : hasEntry cur (outOf n) = false := by simpa using hsk
      rcases hff : ff (d ++ [n]) with ⟨ok, art⟩
      cases ok with
      | false =>
        cases art with
        | none =>
          rw [convert_fail hsup hfr hff]
          constructor
          · intro ev hev
            rcases List.mem_singleton.mp hev with rfl
            exact srcPathOk_base h' hsup
          · exact fun x hx _ => hx
        | some sz =>
          rw [convert_fail hsup hfr hff]
          constructor
          · intro ev hev
            rcases List.mem_singleton.mp hev with rfl
            exact srcPathOk_base h' hsup
          · intro x hx _
            show x ∈ setFileB cur (outOf n) sz
            rw [setFileB_fresh hfr]
            exact List.mem_append_left _ hx
      | true =>
        cases art with
        | none =>
          rw [convert_none_out hsup hfr hff]
          constructor
          · intro ev hev
            rcases List.mem_singleton.mp hev with rfl
            exact srcPathOk_base h' hsup
          · exact fun x hx _ => hx
        | some sz =>
          cases sz with
          | zero =>
            rw [convert_empty hsup hfr hff]
            constructor
            · intro ev hev
              rcases List.mem_singleton.mp hev with rfl
              exact srcPathOk_base h' hsup
            · intro x hx _
              exact List.mem_append_left _ hx
          | succ k =>
            rw [convert_success hsup hfr hff]
            constructor
            · intro ev hev
              rcases List.mem_cons.mp hev with rfl | hev'
              · exact srcPathOk_base h' hsup
              · rcases List.mem_singleton.mp hev' with rfl
                exact srcPathOk_base h' hsup
            · intro x hx hhid
              exact mem_removeB_of_ne (List.mem_append_left _ hx)
                (hidden_ne hhid h')
  · intro d n size cur h hsup
    have h' : strStarts "." n = false := by simpa using h
    have hsup' : matchesSupported n = false := by simpa using hsup
    rw [scanOne_file_unsup h' hsup']
    exact ⟨fun ev hev => absurd hev (List.not_mem_nil ev), fun x hx _ => hx⟩
  · intro d cur
    rw [scan_nil]
    exact ⟨fun ev hev => absurd hev (List.not_mem_nil ev), fun x hx _ => hx⟩
  · intro d e rest cur r er herr IH2
    have herr' : (scanDirOne ff d e cur).err = some er := herr
    rw [scan_cons_err herr']
    exact IH2
  · intro d e rest cur r herr IH2 IH1
    have herr0 : (scanDirOne ff d e cur).err = none := herr
    rw [scan_cons_ok herr0]
    constructor
    · intro ev hev
      rcases List.mem_append.mp hev with hev | hev
      · exact IH2.1 ev hev
      · exact IH1.1 ev hev
    · intro x hx hhid
      exact IH1.2 x (IH2.2 x hx hhid) hhid

/-! ## Claim theorems -/

/-- C1 (counterexample): the claim "a source is deleted only if its target
artifact has been verified to exist and be non-empty" is false on the
archive script.  With a 7z that reports success but writes no artifact at
all, the run records the item as succeeded and deletes the source `a`
while no artifact `a.7z` exists in the final state. -/
theorem c1_delete_without_artifact_cex :
    (runArchive toolNoArtifact dirA).2.1 =
      [(⟨"a", false, 5⟩, Outcome.succeeded "a.7z")] ∧
    (runArchive toolNoArtifact dirA).1 = [] ∧
    hasName (runArchive toolNoArtifact dirA).1 "a.7z" = false := by
  decide

/-- C1 (amended): a source is deleted exactly when its transform reports
success, after the transform call returns: the archive variant deletes on
a zero 7z exit with no artifact verification; the transcode variant
deletes exactly when ffmpeg exits zero and the stat'ed output is
non-empty; the hash-rename variant deletes exactly in move mode after a
fresh copy completes.  The deletion event always follows the transform
invocation in program order. -/
theorem c1_deletion_gated_on_tool_success :
    (∀ (tool : SevenZip) (s : List AEntry) (it : AEntry),
      hasName s (it.name ++ ".7z") = false →
      ((AEvent.removed it.name ∈ (processItem tool s it).2.2) ↔
        (tool it.name (it.name ++ ".7z")).1 = true) ∧
      ((tool it.name (it.name ++ ".7z")).1 = true →
        ∃ mid, (processItem tool s it).2.2 =
          AEvent.toolRun it.name (it.name ++ ".7z") ::
            mid ++ [AEvent.removed it.name])) ∧
    (∀ (ff : Ffmpeg) (d : List String) (n : String) (cur : List FNode),
      matchesSupported n = true → hasEntry cur (outOf n) = false →
      ((TEvent.removedSrc (d ++ [n]) ∈ (convertVideoFile ff d n cur).events) ↔
        ∃ k, ff (d ++ [n]) = (true, some (k + 1))) ∧
      (∀ k, ff (d ++ [n]) = (true, some (k + 1)) →
        (convertVideoFile ff d n cur).events =
          [TEvent.ffmpegRun (d ++ [n]), TEvent.removedSrc (d ++ [n])])) ∧
    (∀ (hashFn : HashFn) (move : Bool) (tgt : Tgt) (p : List String)
        (n : String) (c : List Nat),
      ((copySingleFile hashFn move tgt p n c).deleted = true ↔
        (move = true ∧ tgtHas tgt (targetNameOf hashFn c n) = false)) ∧
      ((copySingleFile hashFn move tgt p n c).deleted = true →
        (copySingleFile hashFn move tgt p n c).events =
          [REvent.readFull p, REvent.statTarget (targetNameOf hashFn c n),
            REvent.copied p (targetNameOf hashFn c n),
            REvent.removedSource p])) := by
  refine ⟨?_, ?_, ?_⟩
  · intro tool s it hf
    rcases htool : tool it.name (it.name ++ ".7z") with ⟨ok, art⟩
    cases ok with
    | true =>
      cases art with
      | none =>
        constructor
        · simp [processItem, hf, htool]
        · intro _
          refine ⟨[], ?_⟩
          simp [processItem, hf, htool]
      | some sz =>
        constructor
        · simp [processItem, hf, htool]
        · intro _
          refine ⟨[AEvent.wrote (it.name ++ ".7z") sz], ?_⟩
          simp [processItem, hf, htool]
    | false =>
      cases art with
      | none =>
        constructor
        · simp [processItem, hf, htool]
        · intro hc
          simp at hc
      | some sz =>
        constructor
        · simp [processItem, hf, htool]
        · intro hc
          simp at hc
  · intro ff d n cur hsup hfr
    rcases hff : ff (d ++ [n]) with ⟨ok, art⟩
    cases ok with
    | false =>
      cases art with
      | none =>
        rw [convert_fail hsup hfr hff]
        refine ⟨by simp [hff], ?_⟩
        intro k hk
        exact absurd hk (by simp)
      | some sz =>
        rw [convert_fail hsup hfr hff]
        refine ⟨by simp [hff], ?_⟩
        intro k hk
        exact absurd hk (by simp)
    | true =>
      cases art with
      | none =>
        rw [convert_none_out hsup hfr hff]
        refine ⟨by simp [hff], ?_⟩
        intro k hk
        exact absurd hk (by simp)
      | some sz =>
        cases sz with
        | zero =>
          rw [convert_empty hsup hfr hff]
          refine ⟨by simp [hff], ?_⟩
          intro k hk
          exact absurd hk (by simp)
        | succ k =>
          rw [convert_success hsup hfr hff]
          constructor
          · simp
          · intro _ _
            rfl
  · intro hashFn move tgt p n c
    by_cases hsk : tgtHas tgt (targetNameOf hashFn c n) = true
    · rw [copy_skip hsk]
      constructor
      · simp [hsk]
      · intro hc
        simp at hc
    · have hf : tgtHas tgt (targetNameOf hashFn c n) = false := by simpa using hsk
      rw [copy_fresh hf]
      cases move with
      | false =>
        constructor
        · simp
        · intro hc
          simp at hc
      | true =>
        constructor
        · simp [hf]
        · intro _
          rfl

/-- C1 witness: concrete instantiations of each conjunct. -/
theorem c1_witness :
    hasName dirA "a.7z" = false ∧
    ((AEvent.removed "a" ∈ (processItem toolSize5 dirA ⟨"a", false, 5⟩).2.2) ↔
      (toolSize5 "a" "a.7z").1 = true) := by
  have h := c1_deletion_gated_on_tool_success
  exact ⟨by decide, (h.1 toolSize5 dirA ⟨"a", false, 5⟩ (by decide)).1⟩

/-- C2 (counterexample): the claim that a failed item "never aborts the
batch, in every transform variant including transcode" is false.  With an
ffmpeg that fails on the first of two sibling videos, the run aborts with
the process error, emits no event for `b.mov`, and leaves `b.mov`
unprocessed (present, with no `b.webm`). -/
theorem c2_transcode_failure_aborts_cex :
    (runTranscode ffAlwaysFail treeAB).err =
      some (TErr.processError ["a.mov"]) ∧
    (runTranscode ffAlwaysFail treeAB).events = [TEvent.ffmpegRun ["a.mov"]] ∧
    hasEntry (runTranscode ffAlwaysFail treeAB).state "b.mov" = true ∧
    hasEntry (runTranscode ffAlwaysFail treeAB).state "b.webm" = false := by
  decide

/-- C2 (amended): in the archive variant a failure is isolated — every
snapshot item receives an outcome and a failed item's source entry is
still present at the end; in the transcode variant a conversion error
propagates and aborts the batch (the remaining items contribute nothing),
though the failing item's source is left in place. -/
theorem c2_failure_handling :
    (∀ (tool : SevenZip) (s : List AEntry),
      ((runArchive tool s).2.1).map Prod.fst = snapshot s) ∧
    (∀ (tool : SevenZip) (s : List AEntry),
      distinctNames (namesA s) = true →
      ∀ p ∈ (runArchive tool s).2.1, p.2 = Outcome.failed →
        p.1 ∈ (runArchive tool s).1) ∧
    (∀ (ff : Ffmpeg) (d : List String) (e : FNode) (rest cur : List FNode)
        (er : TErr),
      (scanDirOne ff d e cur).err = some er →
      scanDirEntries ff d (e :: rest) cur =
        ⟨(scanDirOne ff d e cur).events, (scanDirOne ff d e cur).state,
          some er⟩) ∧
    (∀ (ff : Ffmpeg) (d : List String) (n : String) (cur : List FNode)
        (art : Option Nat),
      matchesSupported n = true → hasEntry cur (outOf n) = false →
      ff (d ++ [n]) = (false, art) →
      (convertVideoFile ff d n cur).err =
        some (TErr.processError (d ++ [n])) ∧
      ∀ e ∈ cur, e ∈ (convertVideoFile ff d n cur).state) := by
  refine ⟨?_, ?_, ?_, ?_⟩
  · intro tool s
    exact runItems_trace_fst tool (snapshot s) s
  · intro tool s hd p hp hfail
    refine runItems_failed_mem ?_ ?_ p hp hfail
    · exact distinctNames_snapshot hd
    · exact snapshot_sub
  · intro ff d e rest cur er herr
    exact scan_cons_err herr
  · intro ff d n cur art hsup hfr hff
    cases art with
    | none =>
      rw [convert_fail hsup hfr hff]
      exact ⟨rfl, fun e he => he⟩
    | some sz =>
      rw [convert_fail hsup hfr hff]
      refine ⟨rfl, fun e he => ?_⟩
      show e ∈ setFileB cur (outOf n) sz
      rw [setFileB_fresh hfr]
      exact List.mem_append_left _ he

/-- C2 witness: concrete instantiations. -/
theorem c2_witness :
    distinctNames (namesA dirA) = true ∧
    ((⟨"a", false, 5⟩, Outcome.failed) ∈
      (runArchive toolFailPartial dirA).2.1) ∧
    (⟨"a", false, 5⟩ : AEntry) ∈ (runArchive toolFailPartial dirA).1 := by
  have h := c2_failure_handling
  refine ⟨by decide, by decide, ?_⟩
  exact h.2.1 toolFailPartial dirA (by decide) (⟨"a", false, 5⟩, Outcome.failed)
    (by decide) rfl

/-- C5: an item whose target already exists is skipped in every variant:
the external tool is not invoked, the filesystem state and target are
unchanged, and the source is not deleted. -/
theorem c5_skip_when_target_exists :
    (∀ (tool : SevenZip) (s : List AEntry) (it : AEntry),
      hasName s (it.name ++ ".7z") = true →
      processItem tool s it =
        (s, Outcome.skipped, [AEvent.skippedItem it.name])) ∧
    (∀ (ff : Ffmpeg) (d : List String) (n : String) (cur : List FNode),
      matchesSupported n = true → hasEntry cur (outOf n) = true →
      convertVideoFile ff d n cur =
        ⟨[TEvent.skipExists (d ++ [n])], cur, none⟩) ∧
    (∀ (hashFn : HashFn) (move : Bool) (tgt : Tgt) (p : List String)
        (n : String) (c : List Nat),
      tgtHas tgt (targetNameOf hashFn c n) = true →
      copySingleFile hashFn move tgt p n c =
        ⟨tgt, false,
          [REvent.readFull p, REvent.statTarget (targetNameOf hashFn c n),
            REvent.skippedExisting p (targetNameOf hashFn c n)]⟩) := by
  refine ⟨?_, ?_, ?_⟩
  · intro tool s it h
    exact processItem_skip h
  · intro ff d n cur hsup hsk
    exact convert_skip hsup hsk
  · intro hashFn move tgt p n c h
    exact copy_skip h

/-- C5 witness: concrete instantiations. -/
theorem c5_witness :
    hasName [⟨"a.7z", false, 3⟩, ⟨"a", false, 5⟩] "a.7z" = true ∧
    processItem toolSize5 [⟨"a.7z", false, 3⟩, ⟨"a", false, 5⟩]
        ⟨"a", false, 5⟩ =
      ([⟨"a.7z", false, 3⟩, ⟨"a", false, 5⟩], Outcome.skipped,
        [AEvent.skippedItem "a"]) := by
  have h := c5_skip_when_target_exists
  exact ⟨by decide,
    h.1 toolSize5 [⟨"a.7z", false, 3⟩, ⟨"a", false, 5⟩] ⟨"a", false, 5⟩
      (by decide)⟩

/-- C6: in the transcode variant, a zero exit with a zero-length output is
treated as a failure (`EmptyOutput`): the run errors, the source file is
still present (no entry of the sibling list is removed), the zero-byte
artifact is what the stat observed, and no removal event is emitted. -/
theorem c6_empty_output_failure (ff : Ffmpeg) (d : List String) (n : String)
    (cur : List FNode) (hsup : matchesSupported n = true)
    (hfr : hasEntry cur (outOf n) = false)
    (hff : ff (d ++ [n]) = (true, some 0)) :
    (convertVideoFile ff d n cur).err =
      some (TErr.emptyOutput (d ++ [n])) ∧
    (∀ e ∈ cur, e ∈ (convertVideoFile ff d n cur).state) ∧
    statSize (convertVideoFile ff d n cur).state (outOf n) = some 0 ∧
    (convertVideoFile ff d n cur).events = [TEvent.ffmpegRun (d ++ [n])] := by
  rw [convert_empty hsup hfr hff]
  exact ⟨rfl, fun e he => List.mem_append_left _ he,
    statSize_append_fresh hfr, rfl⟩

/-- C6 witness: a concrete empty-output run on `a.mov`. -/
theorem c6_witness :
    matchesSupported "a.mov" = true ∧
    hasEntry treeA (outOf "a.mov") = false ∧
    (convertVideoFile ffEmptyOut [] "a.mov" treeA).err =
      some (TErr.emptyOutput ["a.mov"]) := by
  refine ⟨by decide, by decide, ?_⟩
  exact (c6_empty_output_failure ffEmptyOut [] "a.mov" treeA (by decide)
    (by decide) rfl).1

/-- C8: the hash-rename target name is the bare hash exactly when the
extension value is JavaScript-falsy (no extension, or a trailing dot), and
`hash.ext` exactly when a non-empty extension is present; `copySingleFile`
checks existence of precisely that name. -/
theorem c8_bare_hash_naming (hashFn : HashFn) (move : Bool) (tgt : Tgt)
    (p : List String) (n : String) (c : List Nat) :
    (extTruthy (getFileExtension n) = false →
      targetNameOf hashFn c n = hashFn c) ∧
    (∀ s, getFileExtension n = some s → s ≠ "" →
      targetNameOf hashFn c n = hashFn c ++ "." ++ s) ∧
    (∃ rest, (copySingleFile hashFn move tgt p n c).events =
      REvent.readFull p ::
        REvent.statTarget (targetNameOf hashFn c n) :: rest) := by
  refine ⟨?_, ?_, copy_events_shape hashFn move tgt p n c⟩
  · intro h
    rw [targetNameOf, h]
    simp
  · intro s hs hne
    have ht : extTruthy (getFileExtension n) = true := by
      rw [hs, extTruthy]
      simpa using hne
    rw [targetNameOf, ht]
    simp [hs]

/-- C8 witness: an extension-less name maps to the bare hash. -/
theorem c8_witness :
    extTruthy (getFileExtension "noext") = false ∧
    targetNameOf hashConst [1] "noext" = hashConst [1] := by
  refine ⟨by decide, ?_⟩
  exact (c8_bare_hash_naming hashConst false [] ["noext"] "noext" [1]).1
    (by decide)

/-- C3 (counterexample): the claim that a second run produces no changes
"in every transform variant including archive" is false.  After archiving
`a` into `a.7z` and deleting `a`, a second run enumerates `a.7z` itself,
archives it into `a.7z.7z` and deletes it — the second run both invokes
the tool and changes the filesystem. -/
theorem c3_archive_second_run_changes_cex :
    (runArchive toolSize5 dirA).1 = [⟨"a.7z", false, 5⟩] ∧
    (runArchive toolSize5 (runArchive toolSize5 dirA).1).1 =
      [⟨"a.7z.7z", false, 5⟩] ∧
    (runArchive toolSize5 (runArchive toolSize5 dirA).1).1 ≠
      (runArchive toolSize5 dirA).1 ∧
    (runArchive toolSize5 (runArchive toolSize5 dirA).1).2.1 =
      [(⟨"a.7z", false, 5⟩, Outcome.succeeded "a.7z.7z")] := by
  decide

/-- C3 (amended): idempotence holds in the transcode and hash-rename
variants.  After a fully successful transcode run on a well-formed tree, a
rerun (under any tool behaviour) returns the state unchanged, errs
nowhere, and only emits skip events; after any hash-rename run, a rerun on
the surviving tree and grown target changes neither and performs no write
or removal. -/
theorem c3_idempotent_transcode_and_copy :
    (∀ (ff ff2 : Ffmpeg) (root : List FNode),
      wfList root = true → (runTranscode ff root).err = none →
      (runTranscode ff2 (runTranscode ff root).state).state =
        (runTranscode ff root).state ∧
      (runTranscode ff2 (runTranscode ff root).state).err = none ∧
      allSkipEvents
        (runTranscode ff2 (runTranscode ff root).state).events = true) ∧
    (∀ (hashFn : HashFn) (exts : List String) (move : Bool)
        (root : List CNode) (tgt : Tgt),
      (runCopy hashFn exts move (runCopy hashFn exts move root tgt).tree
        (runCopy hashFn exts move root tgt).target).tree =
          (runCopy hashFn exts move root tgt).tree ∧
      (runCopy hashFn exts move (runCopy hashFn exts move root tgt).tree
        (runCopy hashFn exts move root tgt).target).target =
          (runCopy hashFn exts move root tgt).target ∧
      noWriteEvents (runCopy hashFn exts move
        (runCopy hashFn exts move root tgt).tree
        (runCopy hashFn exts move root tgt).target).events = true) := by
  constructor
  · intro ff ff2 root hw hok
    exact transcode_idempotent hw hok
  · intro hashFn exts move root tgt
    exact copy_idempotent hashFn exts move root tgt

/-- C3 witness: a concrete successful transcode run and its no-op rerun. -/
theorem c3_witness :
    wfList treeAB = true ∧
    (runTranscode ffGoodOut treeAB).err = none ∧
    (runTranscode ffGoodOut (runTranscode ffGoodOut treeAB).state).state =
      (runTranscode ffGoodOut treeAB).state := by
  have h := c3_idempotent_transcode_and_copy
  exact ⟨by decide, by decide,
    (h.1 ffGoodOut ffGoodOut treeAB (by decide) (by decide)).1⟩

/-- C4: exclusion correctness in all three variants.  Archive: an entry
whose name is hidden or ends in `.ts` survives the run and no event names
it as an item.  Transcode and hash-rename: every event's source path
extends the root with non-hidden components only and ends in a name
passing the variant's extension filter (so nothing under a hidden
directory is ever visited, and no excluded entry is ever transformed or
deleted), and hidden entries (with their whole subtrees), as well as
non-matching files, survive in place. -/
theorem c4_exclusion_correctness :
    (∀ (tool : SevenZip) (s : List AEntry) (e : AEntry),
      e ∈ s → keepA e.name = false →
      e ∈ (runArchive tool s).1 ∧
      ∀ ev ∈ (runArchive tool s).2.2, ∀ i, itemOfEvent ev = some i →
        i ≠ e.name) ∧
    (∀ (ff : Ffmpeg) (root : List FNode),
      (∀ ev ∈ (runTranscode ff root).events,
        srcPathOk [] (tpathOf ev) = true) ∧
      (∀ e ∈ root, strStarts "." (FNode.name e) = true →
        e ∈ (runTranscode ff root).state)) ∧
    (∀ (hashFn : HashFn) (exts : List String) (move : Bool)
        (root : List CNode) (tgt : Tgt),
      (∀ ev ∈ (runCopy hashFn exts move root tgt).events,
        ∀ p, rpathOf ev = some p → srcPathOkC exts [] p = true) ∧
      (∀ e ∈ root,
        (strStarts "." (CNode.name e) = true ∨
          (∃ n c, e = CNode.file n c ∧ matchesExt exts n = false)) →
        e ∈ (runCopy hashFn exts move root tgt).tree)) := by
  refine ⟨?_, ?_, ?_⟩
  · intro tool s e he hex
    exact runArchive_excluded he hex
  · intro ff root
    exact scan_excluded ff [] root root
  · intro hashFn exts move root tgt
    exact scanCopy_excluded hashFn exts move [] root tgt

/-- C4 witness: a hidden entry survives a concrete archive run. -/
theorem c4_witness :
    (⟨".h", false, 1⟩ : AEntry) ∈ [(⟨".h", false, 1⟩ : AEntry)] ∧
    keepA ".h" = false ∧
    (⟨".h", false, 1⟩ : AEntry) ∈
      (runArchive toolSize5 [⟨".h", false, 1⟩]).1 := by
  have h := c4_exclusion_correctness
  exact ⟨by decide, by decide,
    (h.1 toolSize5 [⟨".h", false, 1⟩] ⟨".h", false, 1⟩ (by decide)
      (by decide)).1⟩

/-- C7 (counterexample): the claim that any two byte-identical source
files map to the same target filename is false: `a.mp4` and `b.m4v` carry
the same bytes `[1, 2]` and both pass the extension filter, yet their
target names differ (`HASH.mp4` vs `HASH.m4v`), and in one run both are
copied — the second is not skipped. -/
theorem c7_identical_content_different_name_cex :
    matchesExt EXTENSIONS "a.mp4" = true ∧
    matchesExt EXTENSIONS "b.m4v" = true ∧
    targetNameOf hashConst [1, 2] "a.mp4" ≠
      targetNameOf hashConst [1, 2] "b.m4v" ∧
    (runCopy hashConst EXTENSIONS false treePair []).events =
      [REvent.readFull ["a.mp4"], REvent.statTarget "HASH.mp4",
        REvent.copied ["a.mp4"] "HASH.mp4", REvent.readFull ["b.m4v"],
        REvent.statTarget "HASH.m4v", REvent.copied ["b.m4v"] "HASH.m4v"] := by
  decide

/-- C7 (amended): naming is deterministic in content and extension — two
files with identical content and identical extension value map to the same
target filename.  A target name is never written twice in one run and
never over a pre-existing target entry; when the derived name already
exists, the file is skipped with the target left unchanged. -/
theorem c7_deterministic_naming_no_overwrite :
    (∀ (hashFn : HashFn) (c : List Nat) (n₁ n₂ : String),
      getFileExtension n₁ = getFileExtension n₂ →
      targetNameOf hashFn c n₁ = targetNameOf hashFn c n₂) ∧
    (∀ (hashFn : HashFn) (exts : List String) (move : Bool)
        (root : List CNode) (tgt : Tgt),
      (copiedNames (runCopy hashFn exts move root tgt).events).Nodup ∧
      (∀ t ∈ copiedNames (runCopy hashFn exts move root tgt).events,
        tgtHas tgt t = false) ∧
      (∀ t ∈ copiedNames (runCopy hashFn exts move root tgt).events,
        tgtHas (runCopy hashFn exts move root tgt).target t = true)) ∧
    (∀ (hashFn : HashFn) (move : Bool) (tgt : Tgt) (p : List String)
        (n : String) (c : List Nat),
      tgtHas tgt (targetNameOf hashFn c n) = true →
      copySingleFile hashFn move tgt p n c =
        ⟨tgt, false,
          [REvent.readFull p, REvent.statTarget (targetNameOf hashFn c n),
            REvent.skippedExisting p (targetNameOf hashFn c n)]⟩) := by
  refine ⟨?_, ?_, ?_⟩
  · intro hashFn c n1 n2 h
    simp only [targetNameOf, h]
  · intro hashFn exts move root tgt
    exact scanCopy_copied hashFn exts move [] root tgt
  · intro hashFn move tgt p n c h
    exact copy_skip h

/-- C7 witness: identical content and identical extension give the same
name; with that name already in the target, the copy is skipped. -/
theorem c7_witness :
    getFileExtension "a.mp4" = getFileExtension "b.mp4" ∧
    targetNameOf hashConst [1, 2] "a.mp4" =
      targetNameOf hashConst [1, 2] "b.mp4" := by
  have h := c7_deterministic_naming_no_overwrite
  exact ⟨by decide, h.1 hashConst [1, 2] "a.mp4" "b.mp4" (by decide)⟩

/-- C9: the full-content hash is computed before the target-existence
check — every `copySingleFile` event list starts with the full read and
then the target stat, in the skip case as much as in the copy case — and
over a whole run the number of full reads equals the number of matching
reachable files, so skipped files are read too, on every run. -/
theorem c9_read_before_existence_check :
    (∀ (hashFn : HashFn) (move : Bool) (tgt : Tgt) (p : List String)
        (n : String) (c : List Nat),
      ∃ rest, (copySingleFile hashFn move tgt p n c).events =
        REvent.readFull p ::
          REvent.statTarget (targetNameOf hashFn c n) :: rest) ∧
    (∀ (hashFn : HashFn) (exts : List String) (move : Bool)
        (root : List CNode) (tgt : Tgt),
      countReads (runCopy hashFn exts move root tgt).events =
        matchedCount exts root) := by
  constructor
  · exact copy_events_shape
  · intro hashFn exts move root tgt
    exact scanCopy_reads hashFn exts move [] root tgt

/-- C10: the archive item list is the snapshot of the pre-run directory
(every item existed before the run), and once an artifact has been written
at a path, no later event of the same run compresses that path as an item
or deletes it. -/
theorem c10_snapshot_artifact_freshness (tool : SevenZip) (s : List AEntry)
    (hd : distinctNames (namesA s) = true) :
    (∀ it ∈ snapshot s, it ∈ s) ∧
    List.Pairwise (fun a b => noReuseAfter a b = true)
      (runArchive tool s).2.2 := by
  refine ⟨snapshot_sub, ?_⟩
  refine runItems_pairwise (distinctNames_snapshot hd) ?_
  intro x hx
  exact hasName_of_mem (snapshot_sub x hx)

/-- C10 witness: a concrete two-item run. -/
theorem c10_witness :
    distinctNames (namesA dirAB) = true ∧
    List.Pairwise (fun a b => noReuseAfter a b = true)
      (runArchive toolSize5 dirAB).2.2 :=
  ⟨by decide, (c10_snapshot_artifact_freshness toolSize5 dirAB (by decide)).2⟩

end Batch
